import Mathlib

/-!
Verification of the Ki tree-node engine (vendor/github.com/goki/ki/node.go)
against its natural-language specification.

The Go `Node` struct is shallowly embedded as a rose tree: each node carries
its serializable data (`NodeData`) plus two lists of owned sub-nodes, the
embedded-field pseudo-children (`fs`, the nodes walked by `FuncFields`) and
the ordered child slice (`ks`, the `Kids` field).  Parent pointers are
implicit in the tree shape; the one observable aspect of the `Par` field that
the claims mention (whether it is correctly set after load) is tracked by the
boolean `parSet`.  The `Ths` self-handle is tracked by the boolean `ths`
("Ths is non-nil").  Strings are `List Char` so that every string operation
used by the code (split, trim, replace) can be defined and reasoned about
directly.  Signal emissions are returned as explicit event lists.

Parts of the repository that node.go depends on but that are not vendored in
this tree (slice.go's `Slice` methods, flags.go's flag mask, signal.go's
`Signal`, the `kit` type registry, the JSON codec) are modelled from the
spec; each such definition says so in its doc comment.
-/

set_option maxHeartbeats 1000000

/-- Property values stored in a node's `Props` map (`interface{}` payloads in
Go, restricted here to the shapes the claims exercise). -/
inductive PVal where
  | str (s : List Char)
  | num (n : Nat)
deriving DecidableEq

/-- Signals emitted on a node's `NodeSig` channel (NodeSignals in the external
signal.go, named by the spec's update/deleting/destroying notifications). -/
inductive EvKind where
  | updated
  | deleting
  | destroying
deriving DecidableEq

/-- An emission: which signal fired and the `UniqueNm` of the emitting node. -/
structure Event where
  kind : EvKind
  who : List Char
deriving DecidableEq

/-- Error kinds returned by the node operations (node.go returns `error`
values built with fmt.Errorf; the claims distinguish them by site). -/
inductive Err where
  | cycleError
  | selfNotInitialized
  | typeMismatch
  | decodeError
deriving DecidableEq

/-- Bit-state flags of a node (the `Flag int64` field of Node; the individual
bits are declared in the external flags.go, named here after the spec's flag
list: Updating, IsField, OnlySelfUpdate, the Child* change flags, NodeDeleted,
NodeDestroyed, PropUpdated, FieldUpdated, plus NodeCopied set by CopyFrom). -/
structure Flags where
  updating : Bool := false
  isField : Bool := false
  onlySelfUpdate : Bool := false
  nodeDeleted : Bool := false
  nodeDestroyed : Bool := false
  childAdded : Bool := false
  childMoved : Bool := false
  childDeleted : Bool := false
  childrenDeleted : Bool := false
  propUpdated : Bool := false
  fieldUpdated : Bool := false
  nodeCopied : Bool := false
deriving DecidableEq

/-- Per-node data of the Go `Node` struct: `Nm`, `UniqueNm`, `Flag`, `Props`,
and the two pieces of pointer state the claims observe: `ths` (the `Ths`
self-handle is non-nil) and `parSet` (the `Par` pointer is set to the node's
actual holder; the root's `Par` is nil by design and its `parSet` is unused).
`typ` is the fully-qualified concrete type name that `reflect`/`kit` would
report for the node (`Type()`/`kit.FullTypeName`). -/
structure NodeData where
  nm : List Char := []
  uniqueNm : List Char := []
  typ : List Char := []
  flags : Flags := {}
  props : List (List Char × PVal) := []
  ths : Bool := false
  parSet : Bool := false
deriving DecidableEq

/-- The Ki tree: a node's data, its embedded-field pseudo-children (walked by
`FuncFields`; each has the IsField flag), and its `Kids` child slice. -/
inductive Node where
  | mk (d : NodeData) (fs : List Node) (ks : List Node)

mutual
def nodeDecEq : (a b : Node) → Decidable (a = b)
  | .mk d1 f1 k1, .mk d2 f2 k2 =>
    match decEq d1 d2, nodeDecEqL f1 f2, nodeDecEqL k1 k2 with
    | isTrue h1, isTrue h2, isTrue h3 => isTrue (by rw [h1, h2, h3])
    | isFalse h1, _, _ => isFalse (by intro h; injection h; contradiction)
    | _, isFalse h2, _ => isFalse (by intro h; injection h; contradiction)
    | _, _, isFalse h3 => isFalse (by intro h; injection h; contradiction)
def nodeDecEqL : (a b : List Node) → Decidable (a = b)
  | [], [] => isTrue rfl
  | [], _ :: _ => isFalse (by intro h; injection h)
  | _ :: _, [] => isFalse (by intro h; injection h)
  | a :: as, b :: bs =>
    match nodeDecEq a b, nodeDecEqL as bs with
    | isTrue h1, isTrue h2 => isTrue (by rw [h1, h2])
    | isFalse h1, _ => isFalse (by intro h; injection h; contradiction)
    | _, isFalse h2 => isFalse (by intro h; injection h; contradiction)
end

instance : DecidableEq Node := nodeDecEq

def Node.d : Node → NodeData
  | .mk d _ _ => d

def Node.fs : Node → List Node
  | .mk _ fs _ => fs

def Node.ks : Node → List Node
  | .mk _ _ ks => ks

def Node.uniqueNm (t : Node) : List Char := t.d.uniqueNm

def Node.nm (t : Node) : List Char := t.d.nm

@[simp] theorem Node.d_mk (d : NodeData) (fs ks : List Node) : (Node.mk d fs ks).d = d := rfl

@[simp] theorem Node.fs_mk (d : NodeData) (fs ks : List Node) : (Node.mk d fs ks).fs = fs := rfl

@[simp] theorem Node.ks_mk (d : NodeData) (fs ks : List Node) : (Node.mk d fs ks).ks = ks := rfl

/-- Shorthand used throughout: the characters of a string literal. -/
def S (s : String) : List Char := s.data

/-- Translates SetUniqueName (node.go:157-159):
`n.UniqueNm = strings.Replace(strings.Replace(name, ".", "_", -1), "/", "_", -1)`.
Both patterns are single characters and count -1 replaces every occurrence,
so each `strings.Replace` is a character map. -/
def setUniqueName (name : List Char) : List Char :=
  (name.map (fun c => if c = '.' then '_' else c)).map (fun c => if c = '/' then '_' else c)

/-- C9: the derived unique name never contains the path separators '.' or '/':
SetUniqueName replaces every occurrence of both with '_'. -/
theorem c9_setUniqueName_no_separators (name : List Char) :
    '.' ∉ setUniqueName name ∧ '/' ∉ setUniqueName name := by
  constructor
  · intro h
    rcases List.mem_map.1 h with ⟨a, ha, hga⟩
    by_cases h1 : a = '/'
    · rw [if_pos h1] at hga; exact absurd hga (by decide)
    · rw [if_neg h1] at hga
      subst hga
      rcases List.mem_map.1 ha with ⟨b, _, hfb⟩
      by_cases h2 : b = '.'
      · rw [if_pos h2] at hfb; exact absurd hfb (by decide)
      · rw [if_neg h2] at hfb; exact h2 hfb
  · intro h
    rcases List.mem_map.1 h with ⟨a, _, hga⟩
    by_cases h1 : a = '/'
    · rw [if_pos h1] at hga; exact absurd hga (by decide)
    · rw [if_neg h1] at hga; exact h1 hga

/-- Steps of an address inside a tree: descend into the i-th embedded field
or the i-th child.  Pointer identity of nodes in one tree is address
identity, since every node occurs at exactly one position. -/
inductive Step where
  | fld (i : Nat)
  | kid (i : Nat)
deriving DecidableEq

/-- The node reached from `t` by following an address, if any. -/
def getAt : Node → List Step → Option Node
  | t, [] => some t
  | t, .fld i :: a => match t.fs.get? i with | some c => getAt c a | none => none
  | t, .kid i :: a => match t.ks.get? i with | some c => getAt c a | none => none

def Node.updating (t : Node) : Bool := t.d.flags.updating

def Node.destroyed (t : Node) : Bool := t.d.flags.nodeDestroyed

def Node.deleted (t : Node) : Bool := t.d.flags.nodeDeleted

def Node.onlySelf (t : Node) : Bool := t.d.flags.onlySelfUpdate

/-- Translates the `This()` accessor (node.go:67-72): the self-handle reads
as nil when `Ths` is nil or the node is destroyed. -/
def Node.thisNil (t : Node) : Bool := !t.d.ths || t.d.flags.nodeDestroyed

/-- Apply a data update to the root node only (a Go method mutating `n`'s own
fields). -/
def mapRootD (g : NodeData → NodeData) : Node → Node
  | .mk d fs ks => .mk (g d) fs ks

/-- Clears the transient change flags.  Modelled from the spec (the bit mask
`UpdateFlagsMask` lives in the external flags.go): the Child*/Prop*/Field*
change flags and NodeCopied are transient and are cleared when an update
bracket opens; NodeDeleted and NodeDestroyed are permanent; Updating,
IsField and OnlySelfUpdate are state bits, not change records. -/
def clearUpdateMask (f : Flags) : Flags :=
  { f with childAdded := false, childMoved := false, childDeleted := false,
           childrenDeleted := false, propUpdated := false, fieldUpdated := false,
           nodeCopied := false }

mutual
/-- Translates the subtree walk of UpdateStart (node.go:1143-1151): a
FuncDownMeFirst that, on each node not already updating, clears the transient
flags and sets Updating, and does not descend below a node that is already
updating. -/
def markUpdating : Node → Node
  | .mk d fs ks =>
    if d.flags.updating then .mk d fs ks
    else .mk { d with flags := { clearUpdateMask d.flags with updating := true } }
      (markUpdatingL fs) (markUpdatingL ks)
def markUpdatingL : List Node → List Node
  | [] => []
  | t :: ts => markUpdating t :: markUpdatingL ts
end

mutual
/-- Translates the subtree walk of UpdateEnd / UpdateReset (node.go:1170-1173,
1212-1215): a FuncDownMeFirst unconditionally clearing Updating. -/
def clearUpdating : Node → Node
  | .mk d fs ks =>
    .mk { d with flags := { d.flags with updating := false } }
      (clearUpdatingL fs) (clearUpdatingL ks)
def clearUpdatingL : List Node → List Node
  | [] => []
  | t :: ts => clearUpdating t :: clearUpdatingL ts
end

mutual
/-- Translates the subtree walk of SetParent (node.go:220-223): a
FuncDownMeFirst setting every node's Updating bit to the new parent's
updating state. -/
def setUpdState (b : Bool) : Node → Node
  | .mk d fs ks =>
    .mk { d with flags := { d.flags with updating := b } }
      (setUpdStateL b fs) (setUpdStateL b ks)
def setUpdStateL (b : Bool) : List Node → List Node
  | [] => []
  | t :: ts => setUpdState b t :: setUpdStateL b ts
end

/-- Translates UpdateReset (node.go:1208-1217): clear Updating without
emitting, on the node alone under OnlySelfUpdate, else across the subtree. -/
def updateReset (t : Node) : Node :=
  if t.onlySelf then mapRootD (fun d => { d with flags := { d.flags with updating := false } }) t
  else clearUpdating t

/-- Translates UpdateStart (node.go:1136-1154): returns false if already
updating or destroyed; otherwise marks the node alone (OnlySelfUpdate) or
the whole subtree, and returns true. -/
def updateStart (t : Node) : Bool × Node :=
  if t.updating || t.destroyed then (false, t)
  else if t.onlySelf then
    (true, mapRootD (fun d => { d with flags := { d.flags with updating := true } }) t)
  else (true, markUpdating t)

/-- Translates UpdateSig (node.go:1200-1206): no emission while updating or
destroyed, otherwise one immediate `updated` emission on the node. -/
def updateSig (t : Node) : Bool × List Event :=
  if t.updating || t.destroyed then (false, [])
  else (true, [⟨.updated, t.uniqueNm⟩])

mutual
/-- Structural size of a tree, ignoring node data: the recursion measure for
the destruction functions. -/
def nsize : Node → Nat
  | .mk _ fs ks => 1 + nsizeL fs + nsizeL ks
def nsizeL : List Node → Nat
  | [] => 0
  | t :: ts => nsize t + nsizeL ts
end

theorem nsize_pos (t : Node) : 1 ≤ nsize t := by
  match t with
  | .mk d fs ks => rw [nsize]; omega

theorem nsizeL_ks_lt (t : Node) : nsizeL t.ks < nsize t := by
  match t with
  | .mk d fs ks => rw [nsize]; simp only [Node.ks_mk]; omega

theorem nsizeL_fs_lt (t : Node) : nsizeL t.fs < nsize t := by
  match t with
  | .mk d fs ks => rw [nsize]; simp only [Node.fs_mk]; omega

theorem nsize_mapRootD (g : NodeData → NodeData) (t : Node) :
    nsize (mapRootD g t) = nsize t := by
  match t with
  | .mk d fs ks => rfl

mutual
theorem nsize_markUpdating (t : Node) : nsize (markUpdating t) = nsize t := by
  match t with
  | .mk d fs ks =>
    rw [markUpdating]
    split
    · rfl
    · rw [nsize, nsize, nsize_markUpdatingL fs, nsize_markUpdatingL ks]
theorem nsize_markUpdatingL (ts : List Node) : nsizeL (markUpdatingL ts) = nsizeL ts := by
  match ts with
  | [] => rfl
  | t :: ts => rw [markUpdatingL, nsizeL, nsizeL, nsize_markUpdating t, nsize_markUpdatingL ts]
end

mutual
theorem nsize_clearUpdating (t : Node) : nsize (clearUpdating t) = nsize t := by
  match t with
  | .mk d fs ks =>
    rw [clearUpdating, nsize, nsize, nsize_clearUpdatingL fs, nsize_clearUpdatingL ks]
theorem nsize_clearUpdatingL (ts : List Node) : nsizeL (clearUpdatingL ts) = nsizeL ts := by
  match ts with
  | [] => rfl
  | t :: ts => rw [clearUpdatingL, nsizeL, nsizeL, nsize_clearUpdating t, nsize_clearUpdatingL ts]
end

theorem nsize_updateReset (t : Node) : nsize (updateReset t) = nsize t := by
  rw [updateReset]
  split
  · exact nsize_mapRootD _ t
  · exact nsize_clearUpdating t

theorem nsize_updateStart (t : Node) : nsize (updateStart t).2 = nsize t := by
  rw [updateStart]
  split
  · rfl
  · split
    · exact nsize_mapRootD _ t
    · exact nsize_markUpdating t

theorem nsizeL_map_eq (f : Node → Node) (h : ∀ t, nsize (f t) = nsize t) (ts : List Node) :
    nsizeL (ts.map f) = nsizeL ts := by
  induction ts with
  | nil => rfl
  | cons t ts ih => rw [List.map_cons, nsizeL, nsizeL, h t, ih]

theorem fs_mapRootD (g : NodeData → NodeData) (t : Node) : (mapRootD g t).fs = t.fs := by
  cases t; rfl

theorem ks_mapRootD (g : NodeData → NodeData) (t : Node) : (mapRootD g t).ks = t.ks := by
  cases t; rfl

theorem d_mapRootD (g : NodeData → NodeData) (t : Node) : (mapRootD g t).d = g t.d := by
  cases t; rfl

theorem fs_clearUpdating (t : Node) : (clearUpdating t).fs = clearUpdatingL t.fs := by
  match t with
  | .mk d fs ks => rw [clearUpdating]; rfl

theorem nsizeL_markUpdating_fs (t : Node) (h : t.updating = false) :
    nsizeL (markUpdating t).fs = nsizeL t.fs := by
  match t with
  | .mk d fs ks =>
    rw [markUpdating, if_neg (by simpa [Node.updating] using h)]
    simpa using nsize_markUpdatingL fs

theorem nsizeL_markUpdating_ks (t : Node) (h : t.updating = false) :
    nsizeL (markUpdating t).ks = nsizeL t.ks := by
  match t with
  | .mk d fs ks =>
    rw [markUpdating, if_neg (by simpa [Node.updating] using h)]
    simpa using nsize_markUpdatingL ks

theorem nsizeL_updateStart_fs (t : Node) : nsizeL (updateStart t).2.fs = nsizeL t.fs := by
  rw [updateStart]
  by_cases h1 : (t.updating || t.destroyed) = true
  · rw [if_pos h1]
  · rw [if_neg h1]
    by_cases h2 : t.onlySelf = true
    · rw [if_pos h2]; rw [fs_mapRootD]
    · rw [if_neg h2]
      exact nsizeL_markUpdating_fs t (by revert h1; cases t.updating <;> simp)

theorem nsizeL_updateStart_ks (t : Node) : nsizeL (updateStart t).2.ks = nsizeL t.ks := by
  rw [updateStart]
  by_cases h1 : (t.updating || t.destroyed) = true
  · rw [if_pos h1]
  · rw [if_neg h1]
    by_cases h2 : t.onlySelf = true
    · rw [if_pos h2]; rw [ks_mapRootD]
    · rw [if_neg h2]
      exact nsizeL_markUpdating_ks t (by revert h1; cases t.updating <;> simp)

/-- Translates the per-child work of the DeleteChildren loop (node.go:697-702):
set NodeDeleted, detach the parent pointer (`SetParent(nil)` skips its flag
walk for a nil parent), and UpdateReset the detached subtree.  The Deleting
emission is recorded by the caller. -/
def delKidPrep (k : Node) : Node :=
  updateReset (mapRootD (fun d => { d with parSet := false, flags := { d.flags with nodeDeleted := true } }) k)

theorem nsize_delKidPrep (k : Node) : nsize (delKidPrep k) = nsize k := by
  rw [delKidPrep, nsize_updateReset, nsize_mapRootD]

mutual
/-- Translates Destroy (node.go:720-745) with DeleteChildren(true)
(node.go:694-708) inlined at its call site, as a pure function from the
subtree to the torn-down subtree plus the emissions.  The process-global
deletion queue is modelled call-locally: DeleteChildren enqueues the detached
children and the next DestroyDeleted drain (inside DeleteChildren's
UpdateEnd when that fires, else Destroy's own final drain) destroys exactly
those children, each drain starting from an empty queue — which is the
global behaviour whenever the queue is empty when the top-level Destroy
begins, since every Destroy drains the queue before returning.  Observers
(`DisconnectAll`) and `Ptr` fields are not modelled, so Disconnect has no
effect here. -/
def destroy (t : Node) : Node × List Event :=
  if t.thisNil then (t, [])
  else
    let updt := (updateStart t).1
    let t1 := (updateStart t).2
    let t2 := mapRootD (fun d => { d with flags := { d.flags with childrenDeleted := true } }) t1
    let evD := t2.ks.map (fun k => (⟨.deleting, k.uniqueNm⟩ : Event))
    let dk := t2.ks.map delKidPrep
    let t3 := Node.mk t2.d t2.fs []
    let fire := updt && !t3.destroyed && !t3.deleted
    let t4 :=
      if fire then
        (if t3.onlySelf then mapRootD (fun d => { d with flags := { d.flags with updating := false } }) t3
         else clearUpdating t3)
      else t3
    let evU := if fire then (destroyEach dk).2 ++ [(⟨.updated, t4.uniqueNm⟩ : Event)] else []
    let fs2 := (destroyEach t4.fs).1
    let evF := (destroyEach t4.fs).2
    let t5 := Node.mk t4.d fs2 t4.ks
    let evQ := if fire then [] else (destroyEach dk).2
    let t6 := mapRootD (fun d => { d with ths := false, flags := { d.flags with nodeDestroyed := true } }) t5
    (t6, ⟨.destroying, t.uniqueNm⟩ :: (evD ++ evU ++ evF ++ evQ))
termination_by (nsize t, 0)
decreasing_by
  all_goals simp_wf
  all_goals try (rw [nsizeL_map_eq delKidPrep nsize_delKidPrep, ks_mapRootD, nsizeL_updateStart_ks]; exact Prod.Lex.left _ _ (nsizeL_ks_lt t))
  all_goals
    refine Prod.Lex.left _ _ ?_
    split
    · split
      · rw [fs_mapRootD]
        simp only [Node.fs_mk]
        rw [fs_mapRootD, nsizeL_updateStart_fs]
        exact nsizeL_fs_lt t
      · rw [fs_clearUpdating]
        simp only [Node.fs_mk]
        rw [nsize_clearUpdatingL, fs_mapRootD, nsizeL_updateStart_fs]
        exact nsizeL_fs_lt t
    · simp only [Node.fs_mk]
      rw [fs_mapRootD, nsizeL_updateStart_fs]
      exact nsizeL_fs_lt t
def destroyEach : List Node → List Node × List Event
  | [] => ([], [])
  | t :: ts =>
    let r1 := destroy t
    let r2 := destroyEach ts
    (r1.1 :: r2.1, r1.2 ++ r2.2)
termination_by ts => (nsizeL ts, ts.length)
decreasing_by
  · simp_wf
    rw [nsizeL]
    rcases Nat.eq_zero_or_pos (nsizeL ts) with h | h
    · rw [h]
      exact Prod.Lex.right _ (by simp)
    · exact Prod.Lex.left _ _ (by omega)
  · simp_wf
    rw [nsizeL]
    have := nsize_pos t
    exact Prod.Lex.left _ _ (by omega)
end

/-- Translates UpdateEnd (node.go:1156-1176): no-op on a false token or on a
destroyed or deleted node; if a child-deletion flag is set, drains the
deletion manager (modelled as the supplied queue of detached subtrees) before
anything else; then clears Updating on the node alone (OnlySelfUpdate) or
across the whole subtree, and emits exactly one `updated` signal on the
node. -/
def updateEnd (t : Node) (updt : Bool) (q : List Node) : Node × List Node × List Event :=
  if !updt then (t, q, [])
  else if t.destroyed || t.deleted then (t, q, [])
  else
    let qe := if t.d.flags.childDeleted || t.d.flags.childrenDeleted then
        (([] : List Node), (destroyEach q).2)
      else (q, ([] : List Event))
    if t.onlySelf then
      let t2 := mapRootD (fun d => { d with flags := { d.flags with updating := false } }) t
      (t2, qe.1, qe.2 ++ [⟨.updated, t2.uniqueNm⟩])
    else
      let t2 := clearUpdating t
      (t2, qe.1, qe.2 ++ [⟨.updated, t2.uniqueNm⟩])

theorem destroy_of_thisNil (t : Node) (h : t.thisNil = true) : destroy t = (t, []) := by
  rw [destroy, if_pos h]

theorem destroy_final_form (t : Node) (h : t.thisNil = false) :
    ∃ t5 evs, destroy t =
      (mapRootD (fun d => { d with ths := false, flags := { d.flags with nodeDestroyed := true } }) t5, evs) := by
  rw [destroy, if_neg (by simp [h])]
  exact ⟨_, _, rfl⟩

theorem thisNil_destroy_fst (t : Node) : (destroy t).1.thisNil = true ∨ destroy t = (t, []) := by
  by_cases h : t.thisNil = true
  · exact Or.inr (destroy_of_thisNil t h)
  · left
    have h' : t.thisNil = false := by revert h; cases t.thisNil <;> simp
    rcases destroy_final_form t h' with ⟨t5, evs, he⟩
    rw [he]
    simp [Node.thisNil, d_mapRootD]

/-- C10: Destroy is idempotent.  The first Destroy on a live node sets
NodeDestroyed and nils the Ths self-handle, so This() reads nil thereafter;
a second Destroy on the result returns immediately, emitting nothing and
changing nothing.  (In Go the deletion manager holds pointers, so a node
enqueued twice is torn down at most once by exactly this guard.) -/
theorem c10_destroy_idempotent (t : Node) :
    (t.thisNil = false →
      (destroy t).1.destroyed = true ∧ (destroy t).1.d.ths = false ∧ (destroy t).1.thisNil = true) ∧
    destroy (destroy t).1 = ((destroy t).1, []) := by
  constructor
  · intro h
    rcases destroy_final_form t h with ⟨t5, evs, he⟩
    rw [he]
    simp [Node.destroyed, Node.thisNil, d_mapRootD]
  · rcases thisNil_destroy_fst t with h | h
    · exact destroy_of_thisNil _ h
    · rw [h]
      show destroy t = (t, [])
      exact h

theorem c10_destroy_idempotent_witness :
    (Node.mk { ths := true } [] []).thisNil = false ∧
    ((destroy (Node.mk { ths := true } [] [])).1.destroyed = true ∧
     (destroy (Node.mk { ths := true } [] [])).1.d.ths = false ∧
     (destroy (Node.mk { ths := true } [] [])).1.thisNil = true) :=
  ⟨by decide, (c10_destroy_idempotent (Node.mk { ths := true } [] [])).1 (by decide)⟩

mutual
/-- Decidable subtree predicate: no node of the subtree has Updating set. -/
def noUpd : Node → Bool
  | .mk d fs ks => !d.flags.updating && noUpdL fs && noUpdL ks
def noUpdL : List Node → Bool
  | [] => true
  | t :: ts => noUpd t && noUpdL ts
end

mutual
/-- Decidable subtree predicate: every node of the subtree has Updating set. -/
def allUpd : Node → Bool
  | .mk d fs ks => d.flags.updating && allUpdL fs && allUpdL ks
def allUpdL : List Node → Bool
  | [] => true
  | t :: ts => allUpd t && allUpdL ts
end

theorem noUpd_root (t : Node) (h : noUpd t = true) : t.updating = false := by
  match t with
  | .mk d fs ks =>
    rw [noUpd] at h
    simp only [Bool.and_eq_true, Bool.not_eq_true'] at h
    simpa [Node.updating] using h.1.1

theorem allUpd_root (t : Node) (h : allUpd t = true) : t.updating = true := by
  match t with
  | .mk d fs ks =>
    rw [allUpd] at h
    simp only [Bool.and_eq_true] at h
    simpa [Node.updating] using h.1.1

theorem allUpdL_mem (ts : List Node) (c : Node) (h : allUpdL ts = true) (hm : c ∈ ts) :
    allUpd c = true := by
  induction ts with
  | nil => cases hm
  | cons t ts ih =>
    rw [allUpdL] at h
    simp only [Bool.and_eq_true] at h
    rcases List.mem_cons.1 hm with rfl | hm2
    · exact h.1
    · exact ih h.2 hm2

theorem noUpdL_mem (ts : List Node) (c : Node) (h : noUpdL ts = true) (hm : c ∈ ts) :
    noUpd c = true := by
  induction ts with
  | nil => cases hm
  | cons t ts ih =>
    rw [noUpdL] at h
    simp only [Bool.and_eq_true] at h
    rcases List.mem_cons.1 hm with rfl | hm2
    · exact h.1
    · exact ih h.2 hm2

theorem allUpd_parts (d : NodeData) (fs ks : List Node) (h : allUpd (.mk d fs ks) = true) :
    allUpdL fs = true ∧ allUpdL ks = true := by
  rw [allUpd] at h
  simp only [Bool.and_eq_true] at h
  exact ⟨h.1.2, h.2⟩

theorem allUpd_getAt (a : List Step) (t m : Node) (h : allUpd t = true)
    (hm : getAt t a = some m) : allUpd m = true := by
  induction a generalizing t with
  | nil => rw [getAt] at hm; cases hm; exact h
  | cons s a ih =>
    match t, s with
    | .mk d fs ks, .fld i =>
      rw [getAt] at hm
      simp only [Node.fs_mk] at hm
      rcases hc : fs.get? i with _ | c
      · rw [hc] at hm; cases hm
      · rw [hc] at hm
        exact ih c ((allUpdL_mem fs c (allUpd_parts d fs ks h).1) (List.get?_mem hc)) hm
    | .mk d fs ks, .kid i =>
      rw [getAt] at hm
      simp only [Node.ks_mk] at hm
      rcases hc : ks.get? i with _ | c
      · rw [hc] at hm; cases hm
      · rw [hc] at hm
        exact ih c ((allUpdL_mem ks c (allUpd_parts d fs ks h).2) (List.get?_mem hc)) hm

mutual
theorem markUpdating_allUpd (t : Node) (h : noUpd t = true) :
    allUpd (markUpdating t) = true := by
  match t with
  | .mk d fs ks =>
    rw [noUpd] at h
    simp only [Bool.and_eq_true, Bool.not_eq_true'] at h
    rw [markUpdating, if_neg (by simp [h.1.1]), allUpd]
    simp only [Bool.and_eq_true]
    refine ⟨⟨?_, markUpdatingL_allUpd fs h.1.2⟩, markUpdatingL_allUpd ks h.2⟩
    simp
theorem markUpdatingL_allUpd (ts : List Node) (h : noUpdL ts = true) :
    allUpdL (markUpdatingL ts) = true := by
  match ts with
  | [] => rfl
  | t :: ts =>
    rw [noUpdL] at h
    simp only [Bool.and_eq_true] at h
    rw [markUpdatingL, allUpdL]
    simp only [Bool.and_eq_true]
    exact ⟨markUpdating_allUpd t h.1, markUpdatingL_allUpd ts h.2⟩
end

theorem d_markUpdating (t : Node) (h : t.updating = false) :
    (markUpdating t).d = { t.d with flags := { clearUpdateMask t.d.flags with updating := true } } := by
  match t with
  | .mk d fs ks =>
    rw [markUpdating, if_neg (by simpa [Node.updating] using h)]
    rfl

theorem uniqueNm_clearUpdating (t : Node) : (clearUpdating t).uniqueNm = t.uniqueNm := by
  match t with
  | .mk d fs ks => rw [clearUpdating]; rfl

theorem uniqueNm_markUpdating (t : Node) (h : t.updating = false) :
    (markUpdating t).uniqueNm = t.uniqueNm := by
  rw [Node.uniqueNm, d_markUpdating t h, Node.uniqueNm]

theorem destroyed_markUpdating (t : Node) (h : t.updating = false) :
    (markUpdating t).destroyed = t.destroyed := by
  rw [Node.destroyed, d_markUpdating t h, Node.destroyed]
  simp [clearUpdateMask]

theorem deleted_markUpdating (t : Node) (h : t.updating = false) :
    (markUpdating t).deleted = t.deleted := by
  rw [Node.deleted, d_markUpdating t h, Node.deleted]
  simp [clearUpdateMask]

theorem onlySelf_markUpdating (t : Node) (h : t.updating = false) :
    (markUpdating t).onlySelf = t.onlySelf := by
  rw [Node.onlySelf, d_markUpdating t h, Node.onlySelf]
  simp [clearUpdateMask]

theorem childDeleted_markUpdating (t : Node) (h : t.updating = false) :
    (markUpdating t).d.flags.childDeleted = false := by
  rw [d_markUpdating t h]
  simp [clearUpdateMask]

theorem childrenDeleted_markUpdating (t : Node) (h : t.updating = false) :
    (markUpdating t).d.flags.childrenDeleted = false := by
  rw [d_markUpdating t h]
  simp [clearUpdateMask]

/-- C1 (amended): on a node n whose subtree contains no updating node, that is
not destroyed, NOT DELETED, and not scoped by OnlySelfUpdate, the outermost
UpdateStart returns a true token and marks the whole subtree, so an
UpdateStart at any node of the marked subtree (a nested bracket) returns a
false token; an UpdateEnd on a false token returns immediately, emitting
nothing; and the one UpdateEnd on the true token emits exactly one `updated`
notification, at n.  (The claim as frozen omits "not deleted": a deleted node
opens a bracket with a true token but its UpdateEnd emits nothing.) -/
theorem c1_nested_update_brackets (t : Node) (q : List Node)
    (hno : noUpd t = true) (hdest : t.destroyed = false) (hdel : t.deleted = false)
    (hosu : t.onlySelf = false) :
    (updateStart t).1 = true ∧
    (∀ a m, getAt (updateStart t).2 a = some m → (updateStart m).1 = false) ∧
    (∀ m q', updateEnd m false q' = (m, q', [])) ∧
    (updateEnd (updateStart t).2 true q).2.2 = [⟨.updated, t.uniqueNm⟩] := by
  have hu : t.updating = false := noUpd_root t hno
  have hstart : updateStart t = (true, markUpdating t) := by
    rw [updateStart, if_neg (by simp [hu, hdest]), if_neg (by simp [hosu])]
  refine ⟨by rw [hstart], ?_, ?_, ?_⟩
  · intro a m hm
    rw [hstart] at hm
    have am := allUpd_getAt a (markUpdating t) m (markUpdating_allUpd t hno) hm
    rw [updateStart, if_pos (by simp [allUpd_root m am])]
  · intro m q'
    rw [updateEnd]
    simp
  · rw [hstart]
    show (updateEnd (markUpdating t) true q).2.2 = _
    rw [updateEnd]
    rw [if_neg (by simp), if_neg (by simp [destroyed_markUpdating t hu, deleted_markUpdating t hu, hdest, hdel])]
    simp only [childDeleted_markUpdating t hu, childrenDeleted_markUpdating t hu,
      Bool.or_self, Bool.false_or, if_false, onlySelf_markUpdating t hu, hosu]
    simp [uniqueNm_clearUpdating, uniqueNm_markUpdating t hu]

theorem c1_nested_update_brackets_witness :
    (updateEnd (updateStart (Node.mk { uniqueNm := S "n", ths := true } []
        [Node.mk { uniqueNm := S "c" } [] []])).2 true []).2.2 =
      [⟨.updated, S "n"⟩] :=
  (c1_nested_update_brackets
    (Node.mk { uniqueNm := S "n", ths := true } [] [Node.mk { uniqueNm := S "c" } [] []]) []
    (by decide) (by decide) (by decide) (by decide)).2.2.2

/-- C1 counterexample: a deleted (but not destroyed and not updating) node
opens a bracket with a true token, yet the UpdateEnd on that token emits
nothing — zero `updated` notifications where the claim requires exactly
one. -/
theorem c1_counterexample :
    (Node.mk { ths := true, flags := { nodeDeleted := true } } [] []).destroyed = false ∧
    (Node.mk { ths := true, flags := { nodeDeleted := true } } [] []).updating = false ∧
    (updateStart (Node.mk { ths := true, flags := { nodeDeleted := true } } [] [])).1 = true ∧
    (updateEnd (updateStart (Node.mk { ths := true, flags := { nodeDeleted := true } } [] [])).2
      true []).2.2 = [] := by
  decide

/-- Translates SetProp (node.go:817-822): assignment into the Props map
(allocating a nil map needs no step in the assoc-list model; assignment
replaces the entry for an existing key, else adds one). -/
def setProp (ps : List (List Char × PVal)) (key : List Char) (v : PVal) :
    List (List Char × PVal) :=
  if ps.any (fun kv => kv.1 == key) then
    ps.map (fun kv => if kv.1 == key then (key, v) else kv)
  else ps ++ [(key, v)]

/-- Translates Prop (node.go:849-852): lookup in the local Props map. -/
def propGet (ps : List (List Char × PVal)) (key : List Char) : Option PVal :=
  (ps.find? (fun kv => kv.1 == key)).map Prod.snd

/-- Translates SetPropUpdate (node.go:837-841): set PropUpdated, store the
property with SetProp, then UpdateSig. -/
def setPropUpdate (t : Node) (key : List Char) (v : PVal) : Node × List Event :=
  let t1 := mapRootD (fun d => { d with flags := { d.flags with propUpdated := true } }) t
  let t2 := mapRootD (fun d => { d with props := setProp d.props key v }) t1
  (t2, (updateSig t2).2)

theorem propGet_cons_pos (rest : List (List Char × PVal)) (key : List Char) (v : PVal) :
    propGet ((key, v) :: rest) key = some v := by
  simp [propGet, List.find?]

theorem propGet_cons_neg (kv : List Char × PVal) (rest : List (List Char × PVal))
    (key : List Char) (hk : (kv.1 == key) = false) :
    propGet (kv :: rest) key = propGet rest key := by
  simp [propGet, List.find?, hk]

theorem propGet_setProp (ps : List (List Char × PVal)) (key : List Char) (v : PVal) :
    propGet (setProp ps key v) key = some v := by
  rw [setProp]
  by_cases h : ps.any (fun kv => kv.1 == key) = true
  · rw [if_pos h]
    induction ps with
    | nil => simp at h
    | cons kv rest ih =>
      rw [List.map_cons]
      by_cases hk : (kv.1 == key) = true
      · rw [if_pos hk]
        exact propGet_cons_pos _ _ _
      · rw [Bool.not_eq_true] at hk
        rw [if_neg (by rw [hk]; exact Bool.false_ne_true)]
        rw [propGet_cons_neg kv _ key hk]
        apply ih
        rw [List.any_cons, hk, Bool.false_or] at h
        exact h
  · rw [if_neg h]
    induction ps with
    | nil =>
      rw [List.nil_append]
      exact propGet_cons_pos _ _ _
    | cons kv rest ih =>
      rw [List.any_cons, Bool.not_eq_true] at h
      have hk2 : (kv.1 == key) = false := (Bool.or_eq_false_iff.mp h).1
      have h2f : rest.any (fun kv => kv.1 == key) = false := (Bool.or_eq_false_iff.mp h).2
      have h2 : ¬rest.any (fun kv => kv.1 == key) = true := by
        rw [h2f]; exact Bool.false_ne_true
      rw [List.cons_append, propGet_cons_neg kv _ key hk2]
      exact ih h2

theorem updating_setPropUpdate_arg (t : Node) (key : List Char) (v : PVal) :
    (setPropUpdate t key v).1.updating = t.updating := by
  rw [setPropUpdate]
  simp only [Node.updating, d_mapRootD]

theorem c8_props_unfold (t : Node) (key : List Char) (v : PVal) :
    (setPropUpdate t key v).1.d.props = setProp t.d.props key v := by
  rw [setPropUpdate]
  simp only [d_mapRootD]

/-- C8 (amended): SetPropUpdate stores the value in the local property map and
sets PropUpdated, and it emits exactly one immediate `updated` notification
when the node is neither mid-update nor destroyed; on an updating or
destroyed node the store and the flag still happen but UpdateSig emits
nothing.  (The claim as frozen asserts one notification for every call.) -/
theorem c8_setPropUpdate (t : Node) (key : List Char) (v : PVal) :
    propGet (setPropUpdate t key v).1.d.props key = some v ∧
    (setPropUpdate t key v).1.d.flags.propUpdated = true ∧
    (t.updating = false → t.destroyed = false →
      (setPropUpdate t key v).2 = [⟨.updated, t.uniqueNm⟩]) ∧
    (t.updating = true ∨ t.destroyed = true → (setPropUpdate t key v).2 = []) := by
  refine ⟨?_, ?_, ?_, ?_⟩
  · rw [c8_props_unfold]
    exact propGet_setProp t.d.props key v
  · rw [setPropUpdate]
    simp only [d_mapRootD]
  · intro h1 h2
    rw [setPropUpdate]
    simp only [updateSig, Node.updating, Node.destroyed, Node.uniqueNm, d_mapRootD]
    simp [Node.updating, Node.destroyed, Node.uniqueNm] at h1 h2 ⊢
    simp [h1, h2]
  · intro h
    rw [setPropUpdate]
    simp only [updateSig, Node.updating, Node.destroyed, d_mapRootD]
    rcases h with h | h <;> simp [Node.updating, Node.destroyed] at h <;> simp [h]

theorem c8_setPropUpdate_witness :
    propGet (setPropUpdate (Node.mk { uniqueNm := S "n", ths := true } [] [])
      (S "k") (.num 1)).1.d.props (S "k") = some (.num 1) ∧
    (setPropUpdate (Node.mk { uniqueNm := S "n", ths := true } [] [])
      (S "k") (.num 1)).2 = [⟨.updated, S "n"⟩] :=
  ⟨(c8_setPropUpdate (Node.mk { uniqueNm := S "n", ths := true } [] []) (S "k") (.num 1)).1,
   (c8_setPropUpdate (Node.mk { uniqueNm := S "n", ths := true } [] []) (S "k") (.num 1)).2.2.1
     (by decide) (by decide)⟩

/-- C8 counterexample: on a node that is mid-update (Updating set, not
destroyed), SetPropUpdate emits no notification at all, where the claim
requires one notification for every call. -/
theorem c8_counterexample :
    (Node.mk { ths := true, flags := { updating := true } } [] []).destroyed = false ∧
    (setPropUpdate (Node.mk { ths := true, flags := { updating := true } } [] [])
      (S "k") (.num 1)).2 = [] := by
  decide

/-- Decimal digits of a number, as `fmt`'s %d renders it. -/
def natChars (n : Nat) : List Char := Nat.toDigits 10 n

/-- Zero-padding to a minimum width, as `fmt`'s %0Nd renders it. -/
def padZero (w : Nat) (cs : List Char) : List Char := List.replicate (w - cs.length) '0' ++ cs

/-- Space-padding to a minimum width, as `fmt`'s %Nd renders it (the >9999999
branch of UniquifyNames uses "%v_%10d", with no zero flag). -/
def padSpace (w : Nat) (cs : List Char) : List Char := List.replicate (w - cs.length) ' ' ++ cs

/-- Translates the format selection of the large-sibling-count path of
UniquifyNames (node.go:178-186). -/
def bigFmt (sz : Nat) : Nat → List Char :=
  if 9999999 < sz then fun i => padSpace 10 (natChars i)
  else if 999999 < sz then fun i => padZero 7 (natChars i)
  else if 99999 < sz then fun i => padZero 6 (natChars i)
  else fun i => padZero 5 (natChars i)

/-- Translates the large-sibling-count loop of UniquifyNames (node.go:187-190):
every child's unique name is rewritten to its plain Name, '_', and its
formatted index (SetUniqueName sanitizes the result). -/
def uniquifyBig (fmtIdx : Nat → List Char) (i : Nat) : List Node → List Node
  | [] => []
  | k :: ks =>
    mapRootD (fun d => { d with uniqueNm := setUniqueName (d.nm ++ '_' :: fmtIdx i) }) k ::
      uniquifyBig fmtIdx (i + 1) ks

/-- Translates the name-preserving loop of UniquifyNames (node.go:192-206):
an empty unique name is first replaced by the parent's unique name (or "c"
at a nil parent) plus "_%03d" of the index; a unique name already recorded
in the map is suffixed with "_%03d" of the index (and, as in the code, the
renamed result is not re-checked and not recorded in the map). -/
def uniqLoop (parU : Option (List Char)) (i : Nat) (seen : List (List Char)) :
    List Node → List Node
  | [] => []
  | k :: ks =>
    let emptyNm := match parU with
      | some pu => pu ++ '_' :: padZero 3 (natChars i)
      | none => 'c' :: padZero 3 (natChars i)
    let k1 :=
      if k.uniqueNm.length = 0 then
        mapRootD (fun d => { d with uniqueNm := setUniqueName emptyNm }) k
      else k
    if seen.any (fun s => s == k1.uniqueNm) then
      mapRootD (fun d => { d with uniqueNm := setUniqueName (d.uniqueNm ++ '_' :: padZero 3 (natChars i)) }) k1 ::
        uniqLoop parU (i + 1) seen ks
    else
      k1 :: uniqLoop parU (i + 1) (k1.uniqueNm :: seen) ks

/-- Translates UniquifyNames (node.go:172-207) with
UniquifyPreserveNameLimit = 100 (node.go:165).  The parent's unique name
(`n.Par.UniqueName()`, read only when renaming empty-named children) is
passed explicitly, `none` modelling a nil parent, since the model's subtrees
do not carry parent pointers. -/
def uniquifyNames (t : Node) (parU : Option (List Char)) : Node :=
  match t with
  | .mk d fs ks =>
    if 100 < ks.length then .mk d fs (uniquifyBig (bigFmt ks.length) 0 ks)
    else .mk d fs (uniqLoop parU 0 [] ks)

/-- Translates Init (node.go:74-92): clear the transient flag mask and bind
the self-handle.  The embedded-field wiring that Init performs through
reflection (IsField flag, field name, parent pointer) is a fixed property of
the model's `fs` list, established when a tree value is built. -/
def initNode (k : Node) : Node :=
  mapRootD (fun d => { d with flags := clearUpdateMask d.flags, ths := true }) k

/-- Translates the kid-side steps of AddChild for a parentless kid: Init
(node.go:489), then addChildImplPost's SetParent walk (marks the kid's
subtree with n's updating state unless n is OnlySelfUpdate, and sets the
parent pointer) and its `oldPar == nil` ChildAdded flag (node.go:471-479),
then the empty-unique-name default of AddChild itself (node.go:513-515). -/
def addKidPrep (t1 kid : Node) : Node :=
  let kid1 := initNode kid
  let kid2 := if t1.onlySelf then kid1 else setUpdState t1.updating kid1
  let kid3 := mapRootD (fun d => { d with parSet := true, flags := { d.flags with childAdded := true } }) kid2
  if kid3.uniqueNm.length = 0 then
    mapRootD (fun d => { d with uniqueNm := setUniqueName d.nm }) kid3
  else kid3

/-- Translates AddChild (node.go:508-520) with AddChildImpl (482-493), for a
kid that is the parentless root of its own tree — the claims' scenario.  For
such a kid AddChildCheck finds no pointer identity between the kid and any
ancestor of n (distinct trees hold disjoint objects), so the cycle check
passes.  `parU` is n's own parent's unique name as UniquifyNames reads it
(`none` for a root n). -/
def addChildCore (t kid : Node) (parU : Option (List Char)) : Node :=
  let t1 := (updateStart t).2
  let kid4 := addKidPrep t1 kid
  let t2 := Node.mk { t1.d with flags := { t1.d.flags with childAdded := true } } t1.fs (t1.ks ++ [kid4])
  uniquifyNames t2 parU

def addChild (t kid : Node) (parU : Option (List Char)) : Node × List Event × Option Err :=
  let updt := (updateStart t).1
  let t1 := (updateStart t).2
  if t1.thisNil then
    let r := updateEnd t1 updt []
    (r.1, r.2.2, some .selfNotInitialized)
  else
    let t3 := addChildCore t kid parU
    let r := updateEnd t3 updt []
    (r.1, r.2.2, none)

/-- The unique names of a node's children, in order. -/
def ksNames (t : Node) : List (List Char) := t.ks.map Node.uniqueNm

theorem markUpdating_root_pres (t : Node) :
    (markUpdating t).uniqueNm = t.uniqueNm ∧ (markUpdating t).nm = t.nm ∧
    (markUpdating t).d.ths = t.d.ths ∧ (markUpdating t).destroyed = t.destroyed ∧
    (markUpdating t).deleted = t.deleted ∧ (markUpdating t).onlySelf = t.onlySelf := by
  cases t with
  | mk d fs ks =>
    rw [markUpdating]
    split
    · exact ⟨rfl, rfl, rfl, rfl, rfl, rfl⟩
    · exact ⟨rfl, rfl, rfl, rfl, rfl, rfl⟩

theorem clearUpdating_root_pres (t : Node) :
    (clearUpdating t).uniqueNm = t.uniqueNm ∧ (clearUpdating t).nm = t.nm ∧
    (clearUpdating t).d.ths = t.d.ths ∧ (clearUpdating t).destroyed = t.destroyed ∧
    (clearUpdating t).deleted = t.deleted ∧ (clearUpdating t).onlySelf = t.onlySelf := by
  cases t with
  | mk d fs ks =>
    rw [clearUpdating]
    exact ⟨rfl, rfl, rfl, rfl, rfl, rfl⟩

theorem setUpdState_root_pres (b : Bool) (t : Node) :
    (setUpdState b t).uniqueNm = t.uniqueNm ∧ (setUpdState b t).nm = t.nm ∧
    (setUpdState b t).d.ths = t.d.ths ∧ (setUpdState b t).destroyed = t.destroyed := by
  cases t with
  | mk d fs ks =>
    rw [setUpdState]
    exact ⟨rfl, rfl, rfl, rfl⟩

theorem updateStart_root_pres (t : Node) :
    (updateStart t).2.uniqueNm = t.uniqueNm ∧ (updateStart t).2.nm = t.nm ∧
    (updateStart t).2.d.ths = t.d.ths ∧ (updateStart t).2.destroyed = t.destroyed ∧
    (updateStart t).2.deleted = t.deleted ∧ (updateStart t).2.onlySelf = t.onlySelf := by
  rw [updateStart]
  split
  · exact ⟨rfl, rfl, rfl, rfl, rfl, rfl⟩
  · split
    · cases t with
      | mk d fs ks => exact ⟨rfl, rfl, rfl, rfl, rfl, rfl⟩
    · exact markUpdating_root_pres t

theorem thisNil_updateStart (t : Node) : (updateStart t).2.thisNil = t.thisNil := by
  have h := updateStart_root_pres t
  have h1 := h.2.2.1
  have h2 := h.2.2.2.1
  rw [Node.destroyed, Node.destroyed] at h2
  rw [Node.thisNil, Node.thisNil, h1, h2]

theorem ksNames_markUpdatingL (ts : List Node) :
    (markUpdatingL ts).map Node.uniqueNm = ts.map Node.uniqueNm := by
  induction ts with
  | nil => rfl
  | cons t ts ih =>
    rw [markUpdatingL, List.map_cons, List.map_cons, (markUpdating_root_pres t).1, ih]

theorem ksNames_clearUpdatingL (ts : List Node) :
    (clearUpdatingL ts).map Node.uniqueNm = ts.map Node.uniqueNm := by
  induction ts with
  | nil => rfl
  | cons t ts ih =>
    rw [clearUpdatingL, List.map_cons, List.map_cons, (clearUpdating_root_pres t).1, ih]

theorem ksNames_markUpdating (t : Node) : ksNames (markUpdating t) = ksNames t := by
  cases t with
  | mk d fs ks =>
    rw [markUpdating]
    split
    · rfl
    · rw [ksNames, ksNames]
      simpa using ksNames_markUpdatingL ks

theorem ksNames_clearUpdating (t : Node) : ksNames (clearUpdating t) = ksNames t := by
  cases t with
  | mk d fs ks =>
    rw [clearUpdating, ksNames, ksNames]
    simpa using ksNames_clearUpdatingL ks

theorem ksNames_updateStart (t : Node) : ksNames (updateStart t).2 = ksNames t := by
  rw [updateStart]
  split
  · rfl
  · split
    · cases t with
      | mk d fs ks => rfl
    · exact ksNames_markUpdating t

theorem ks_updateStart_nil (t : Node) (h : t.ks = []) : (updateStart t).2.ks = [] := by
  have := ksNames_updateStart t
  rw [ksNames, ksNames, h] at this
  simpa using this

theorem updateEnd_root_pres (t : Node) (u : Bool) (q : List Node) :
    (updateEnd t u q).1.d.ths = t.d.ths ∧ (updateEnd t u q).1.destroyed = t.destroyed ∧
    (updateEnd t u q).1.deleted = t.deleted ∧ ksNames (updateEnd t u q).1 = ksNames t := by
  simp only [updateEnd]
  split
  · exact ⟨rfl, rfl, rfl, rfl⟩
  · split
    · exact ⟨rfl, rfl, rfl, rfl⟩
    · split
      · cases t with
        | mk d fs ks => exact ⟨rfl, rfl, rfl, rfl⟩
      · have h := clearUpdating_root_pres t
        have h2 := h.2.2.2.1
        have h3 := h.2.2.2.2.1
        rw [Node.destroyed, Node.destroyed] at h2
        rw [Node.deleted, Node.deleted] at h3
        exact ⟨h.2.2.1, h2, h3, ksNames_clearUpdating t⟩

theorem uniquifyNames_root (t : Node) (parU : Option (List Char)) :
    (uniquifyNames t parU).d = t.d ∧ (uniquifyNames t parU).fs = t.fs := by
  cases t with
  | mk d fs ks =>
    rw [uniquifyNames]
    split
    · exact ⟨rfl, rfl⟩
    · exact ⟨rfl, rfl⟩

theorem uniqueNm_mapRootD (g : NodeData → NodeData) (t : Node)
    (h : ∀ d, (g d).uniqueNm = d.uniqueNm) : (mapRootD g t).uniqueNm = t.uniqueNm := by
  cases t
  exact h _

theorem uniqueNm_initNode (k : Node) : (initNode k).uniqueNm = k.uniqueNm := by
  cases k
  rfl

theorem uniqueNm_addKidPrep (t1 kid : Node) (h : ¬kid.uniqueNm.length = 0) :
    (addKidPrep t1 kid).uniqueNm = kid.uniqueNm := by
  have e2 : (if t1.onlySelf then initNode kid else setUpdState t1.updating (initNode kid)).uniqueNm
      = kid.uniqueNm := by
    split
    · exact uniqueNm_initNode kid
    · exact (setUpdState_root_pres _ _).1.trans (uniqueNm_initNode kid)
  have e3 : (mapRootD (fun d => { d with parSet := true, flags := { d.flags with childAdded := true } })
      (if t1.onlySelf then initNode kid else setUpdState t1.updating (initNode kid))).uniqueNm
      = kid.uniqueNm :=
    (uniqueNm_mapRootD (fun d => { d with parSet := true, flags := { d.flags with childAdded := true } })
      _ (fun d => rfl)).trans e2
  rw [addKidPrep, if_neg (by rw [e3]; exact h)]
  exact e3

theorem addChild_not_err (t kid : Node) (parU : Option (List Char)) (h : t.thisNil = false) :
    (addChild t kid parU).2.2 = none ∧
    (addChild t kid parU).1 = (updateEnd (addChildCore t kid parU) (updateStart t).1 []).1 := by
  have h1 : (updateStart t).2.thisNil = false := (thisNil_updateStart t).trans h
  rw [addChild, if_neg (by rw [h1]; exact Bool.false_ne_true)]
  exact ⟨rfl, rfl⟩

theorem addChildCore_d (t kid : Node) (parU : Option (List Char)) :
    (addChildCore t kid parU).d.ths = (updateStart t).2.d.ths ∧
    (addChildCore t kid parU).d.flags.nodeDestroyed = (updateStart t).2.d.flags.nodeDestroyed := by
  rw [addChildCore]
  rw [(uniquifyNames_root _ _).1]
  exact ⟨rfl, rfl⟩

theorem addChild_root_pres (t kid : Node) (parU : Option (List Char)) (h : t.thisNil = false) :
    (addChild t kid parU).1.d.ths = t.d.ths ∧ (addChild t kid parU).1.destroyed = t.destroyed := by
  rw [(addChild_not_err t kid parU h).2]
  have hS := updateStart_root_pres t
  have hE := updateEnd_root_pres (addChildCore t kid parU) (updateStart t).1 []
  have hC := addChildCore_d t kid parU
  constructor
  · rw [hE.1, hC.1]
    exact hS.2.2.1
  · have e1 : (updateEnd (addChildCore t kid parU) (updateStart t).1 []).1.destroyed
        = (addChildCore t kid parU).destroyed := hE.2.1
    have e2 : (addChildCore t kid parU).destroyed = (updateStart t).2.destroyed := by
      rw [Node.destroyed, Node.destroyed]
      exact hC.2
    rw [e1, e2]
    exact hS.2.2.2.1

theorem uniqLoop_nil (parU : Option (List Char)) (i : Nat) (seen : List (List Char)) :
    uniqLoop parU i seen [] = [] := rfl

theorem uniqLoop_cons_fresh (parU : Option (List Char)) (i : Nat) (seen : List (List Char))
    (k : Node) (ks : List Node) (h : ¬k.uniqueNm.length = 0)
    (hs : seen.any (fun s => s == k.uniqueNm) = false) :
    uniqLoop parU i seen (k :: ks) = k :: uniqLoop parU (i + 1) (k.uniqueNm :: seen) ks := by
  simp only [uniqLoop]
  rw [if_neg h, hs]
  simp

theorem uniqLoop_cons_taken (parU : Option (List Char)) (i : Nat) (seen : List (List Char))
    (k : Node) (ks : List Node) (h : ¬k.uniqueNm.length = 0)
    (hs : seen.any (fun s => s == k.uniqueNm) = true) :
    uniqLoop parU i seen (k :: ks) =
      mapRootD (fun d => { d with uniqueNm := setUniqueName (d.uniqueNm ++ '_' :: padZero 3 (natChars i)) }) k ::
        uniqLoop parU (i + 1) seen ks := by
  simp only [uniqLoop]
  rw [if_neg h, hs]
  simp

theorem uniqueNm_rename (i : Nat) (k : Node) :
    (mapRootD (fun d => { d with uniqueNm := setUniqueName (d.uniqueNm ++ '_' :: padZero 3 (natChars i)) }) k).uniqueNm
      = setUniqueName (k.uniqueNm ++ '_' :: padZero 3 (natChars i)) := by
  cases k
  rfl

theorem ks_of_ksNames_singleton (t : Node) (nm0 : List Char) (h : ksNames t = [nm0]) :
    ∃ c, t.ks = [c] ∧ c.uniqueNm = nm0 := by
  rcases hx : t.ks with _ | ⟨c, rest⟩
  · rw [ksNames, hx] at h
    simp at h
  · rw [ksNames, hx, List.map_cons] at h
    have e1 : c.uniqueNm = nm0 := by injection h
    have e2 : List.map Node.uniqueNm rest = [] := by
      injection h with a b
    have e3 : rest = [] := List.map_eq_nil_iff.mp e2
    exact ⟨c, by rw [e3], e1⟩

/-- C6: starting from an initialized root with no children, adding a child
whose unique name is "x" and then a second child also uniquely named "x"
leaves the first child's unique name "x" and renames the second to "x_001"
(the colliding name suffixed with the 3-digit zero-padded sibling index);
both adds succeed. -/
theorem c6_second_x_gets_001 (r a b : Node) (hk : r.ks = [])
    (hths : r.d.ths = true) (hdest : r.destroyed = false)
    (hau : a.uniqueNm = S "x") (hbu : b.uniqueNm = S "x") :
    (addChild r a none).2.2 = none ∧
    (addChild (addChild r a none).1 b none).2.2 = none ∧
    ksNames (addChild (addChild r a none).1 b none).1 = [S "x", S "x_001"] := by
  have hdest' : r.d.flags.nodeDestroyed = false := hdest
  have hrnil : r.thisNil = false := by rw [Node.thisNil, hths, hdest']; rfl
  have hks1 : (updateStart r).2.ks = [] := ks_updateStart_nil r hk
  have hkid : (addKidPrep (updateStart r).2 a).uniqueNm = S "x" :=
    (uniqueNm_addKidPrep _ a (by rw [hau]; decide)).trans hau
  have hcore1 : ksNames (addChildCore r a none) = [S "x"] := by
    simp only [addChildCore]
    rw [hks1, List.nil_append, uniquifyNames, if_neg (by simp)]
    rw [ksNames]
    simp only [Node.ks_mk]
    rw [uniqLoop_cons_fresh none 0 [] _ [] (by rw [hkid]; decide) rfl, uniqLoop_nil]
    rw [List.map_cons, List.map_nil, hkid]
  have hnames1 : ksNames (addChild r a none).1 = [S "x"] := by
    rw [(addChild_not_err r a none hrnil).2, (updateEnd_root_pres _ _ _).2.2.2, hcore1]
  have hroot1 := addChild_root_pres r a none hrnil
  have h1ths : (addChild r a none).1.d.ths = true := hroot1.1.trans hths
  have h1dest : (addChild r a none).1.destroyed = false := hroot1.2.trans hdest
  have h1dest' : (addChild r a none).1.d.flags.nodeDestroyed = false := h1dest
  have h1nil : (addChild r a none).1.thisNil = false := by
    rw [Node.thisNil, h1ths, h1dest']; rfl
  have hnames1' : ksNames (updateStart (addChild r a none).1).2 = [S "x"] :=
    (ksNames_updateStart _).trans hnames1
  obtain ⟨c, hc, hcn⟩ := ks_of_ksNames_singleton _ _ hnames1'
  have hkid2 : (addKidPrep (updateStart (addChild r a none).1).2 b).uniqueNm = S "x" :=
    (uniqueNm_addKidPrep _ b (by rw [hbu]; decide)).trans hbu
  have hcore2 : ksNames (addChildCore (addChild r a none).1 b none) = [S "x", S "x_001"] := by
    simp only [addChildCore]
    rw [hc, List.cons_append, List.nil_append]
    rw [uniquifyNames, if_neg (by simp)]
    rw [ksNames]
    simp only [Node.ks_mk]
    rw [uniqLoop_cons_fresh none 0 [] c _ (by rw [hcn]; decide) rfl]
    rw [uniqLoop_cons_taken none 1 [c.uniqueNm] _ [] (by rw [hkid2]; decide)
      (by rw [hcn, hkid2]; decide), uniqLoop_nil]
    rw [List.map_cons, List.map_cons, List.map_nil, hcn, uniqueNm_rename, hkid2]
    decide
  have hnames2 : ksNames (addChild (addChild r a none).1 b none).1 = [S "x", S "x_001"] := by
    rw [(addChild_not_err _ b none h1nil).2, (updateEnd_root_pres _ _ _).2.2.2, hcore2]
  exact ⟨(addChild_not_err r a none hrnil).1, (addChild_not_err _ b none h1nil).1, hnames2⟩

theorem c6_second_x_gets_001_witness :
    ksNames (addChild (addChild (Node.mk { ths := true } [] [])
        (Node.mk { nm := S "x", uniqueNm := S "x" } [] []) none).1
      (Node.mk { nm := S "x", uniqueNm := S "x" } [] []) none).1 = [S "x", S "x_001"] :=
  (c6_second_x_gets_001 (Node.mk { ths := true } [] [])
    (Node.mk { nm := S "x", uniqueNm := S "x" } [] [])
    (Node.mk { nm := S "x", uniqueNm := S "x" } [] [])
    rfl rfl rfl rfl rfl).2.2

/-- C2 fails on the code: UniquifyNames renames a colliding child to
`name_NNN` without re-checking that the renamed result is fresh and without
recording it in the map.  With children uniquely named "x_002", "x", "x"
(reachable by three AddChild calls, as the third conjunct shows), the third
child is renamed to "x_002", duplicating the first: the siblings are not
pairwise distinct after UniquifyNames completes, contradicting both the
claim and the function's own documentation ("makes sure that the names are
unique"). -/
theorem c2_uniquify_duplicate_bug :
    ksNames (uniquifyNames (Node.mk { ths := true } []
        [Node.mk { nm := S "x_002", uniqueNm := S "x_002" } [] [],
         Node.mk { nm := S "x", uniqueNm := S "x" } [] [],
         Node.mk { nm := S "x", uniqueNm := S "x" } [] []]) none) =
      [S "x_002", S "x", S "x_002"] ∧
    ¬ (ksNames (uniquifyNames (Node.mk { ths := true } []
        [Node.mk { nm := S "x_002", uniqueNm := S "x_002" } [] [],
         Node.mk { nm := S "x", uniqueNm := S "x" } [] [],
         Node.mk { nm := S "x", uniqueNm := S "x" } [] []]) none)).Pairwise (· ≠ ·) ∧
    ksNames (addChild (addChild (addChild (Node.mk { ths := true } [] [])
        (Node.mk { nm := S "x_002", uniqueNm := S "x_002" } [] []) none).1
        (Node.mk { nm := S "x", uniqueNm := S "x" } [] []) none).1
        (Node.mk { nm := S "x", uniqueNm := S "x" } [] []) none).1 =
      [S "x_002", S "x", S "x_002"] := by
  refine ⟨by decide, by decide, by decide⟩

/-- Replace the i-th element of a list by its image under `g` (out-of-range
indices leave the list unchanged). -/
def modifyIdx (g : Node → Node) : Nat → List Node → List Node
  | _, [] => []
  | 0, x :: xs => g x :: xs
  | i + 1, x :: xs => x :: modifyIdx g i xs

/-- Rewrite the subtree at an address in place; an invalid address leaves the
tree unchanged. -/
def modifyAt (f : Node → Node) : Node → List Step → Node
  | t, [] => f t
  | .mk d fs ks, .fld i :: a => .mk d (modifyIdx (fun c => modifyAt f c a) i fs) ks
  | .mk d fs ks, .kid i :: a => .mk d fs (modifyIdx (fun c => modifyAt f c a) i ks)

/-- `modifyIdx` for an update that also yields emissions. -/
def modifyIdxE (g : Node → Node × List Event) : Nat → List Node → List Node × List Event
  | _, [] => ([], [])
  | 0, x :: xs => ((g x).1 :: xs, (g x).2)
  | i + 1, x :: xs =>
    let r := modifyIdxE g i xs
    (x :: r.1, r.2)

/-- `modifyAt` for an update that also yields emissions. -/
def modifyAtE (f : Node → Node × List Event) : Node → List Step → Node × List Event
  | t, [] => f t
  | .mk d fs ks, .fld i :: a =>
    let r := modifyIdxE (fun c => modifyAtE f c a) i fs
    (.mk d r.1 ks, r.2)
  | .mk d fs ks, .kid i :: a =>
    let r := modifyIdxE (fun c => modifyAtE f c a) i ks
    (.mk d fs r.1, r.2)

/-- Address q is an ancestor-or-self of address p: q is an initial segment of
p.  The FuncUp walk of AddChildCheck visits exactly the nodes at the initial
segments of p, so its pointer comparison with the node at q hits iff this
holds. -/
def isPref : List Step → List Step → Bool
  | [], _ => true
  | _ :: _, [] => false
  | x :: xs, y :: ys => x = y && isPref xs ys

/-- Translates AddChild (node.go:508-520) when the child argument is the node
at address q of the same tree in which n sits at address p — the claim's
scenario, q an ancestor-or-self of n.  UpdateStart opens a bracket on n's
subtree before AddChildImpl runs; ThisCheck (node.go:483) rejects an
uninitialized n, otherwise AddChildCheck (node.go:457-468) walks up from n
and finds the kid among n's ancestors, rejecting with the cycle error before
any mutation; UpdateEnd then closes the bracket.  Outside the modelled
domain — p invalid, or q not an initial segment of p, where the Go code
would instead move the node across the tree — the function yields none. -/
def addChildAncestorAt (t : Node) (p q : List Step) : Option (Node × List Event × Option Err) :=
  match getAt t p with
  | none => none
  | some n =>
    if isPref q p then
      let updt := (updateStart n).1
      let t1 := modifyAt (fun m => (updateStart m).2) t p
      let errv : Err := if n.thisNil then Err.selfNotInitialized else Err.cycleError
      let r := modifyAtE (fun m => ((updateEnd m updt []).1, (updateEnd m updt []).2.2)) t1 p
      some (r.1, r.2, some errv)
    else none

mutual
/-- The tree with every node's flag state erased: the claims' notion of the
tree "up to flags" (names, properties, structure, parent pointers, handles
unchanged). -/
def stripFlags : Node → Node
  | .mk d fs ks => .mk { d with flags := {} } (stripFlagsL fs) (stripFlagsL ks)
def stripFlagsL : List Node → List Node
  | [] => []
  | t :: ts => stripFlags t :: stripFlagsL ts
end

mutual
theorem stripFlags_markUpdating (t : Node) : stripFlags (markUpdating t) = stripFlags t := by
  match t with
  | .mk d fs ks =>
    rw [markUpdating]
    split
    · rfl
    · rw [stripFlags, stripFlags, stripFlagsL_markL fs, stripFlagsL_markL ks]
theorem stripFlagsL_markL (ts : List Node) : stripFlagsL (markUpdatingL ts) = stripFlagsL ts := by
  match ts with
  | [] => rfl
  | t :: ts => rw [markUpdatingL, stripFlagsL, stripFlagsL, stripFlags_markUpdating t, stripFlagsL_markL ts]
end

mutual
theorem stripFlags_clearUpdating (t : Node) : stripFlags (clearUpdating t) = stripFlags t := by
  match t with
  | .mk d fs ks =>
    rw [clearUpdating, stripFlags, stripFlags, stripFlagsL_clearL fs, stripFlagsL_clearL ks]
theorem stripFlagsL_clearL (ts : List Node) : stripFlagsL (clearUpdatingL ts) = stripFlagsL ts := by
  match ts with
  | [] => rfl
  | t :: ts => rw [clearUpdatingL, stripFlagsL, stripFlagsL, stripFlags_clearUpdating t, stripFlagsL_clearL ts]
end

theorem stripFlags_updateStart (t : Node) : stripFlags (updateStart t).2 = stripFlags t := by
  rw [updateStart]
  split
  · rfl
  · split
    · cases t with
      | mk d fs ks => rfl
    · exact stripFlags_markUpdating t

theorem stripFlags_updateEnd (t : Node) (u : Bool) (q : List Node) :
    stripFlags (updateEnd t u q).1 = stripFlags t := by
  simp only [updateEnd]
  split
  · rfl
  · split
    · rfl
    · split
      · cases t with
        | mk d fs ks => rfl
      · exact stripFlags_clearUpdating t

theorem stripFlags_modifyIdx (g : Node → Node) (hg : ∀ c, stripFlags (g c) = stripFlags c) :
    ∀ (i : Nat) (l : List Node), stripFlagsL (modifyIdx g i l) = stripFlagsL l := by
  intro i l
  induction l generalizing i with
  | nil => cases i <;> rfl
  | cons x xs ih =>
    cases i with
    | zero => rw [modifyIdx, stripFlagsL, stripFlagsL, hg]
    | succ j => rw [modifyIdx, stripFlagsL, stripFlagsL, ih]

theorem stripFlags_modifyAt (f : Node → Node) (hf : ∀ m, stripFlags (f m) = stripFlags m) :
    ∀ (p : List Step) (t : Node), stripFlags (modifyAt f t p) = stripFlags t := by
  intro p
  induction p with
  | nil =>
    intro t
    rw [modifyAt]
    exact hf t
  | cons s a ih =>
    intro t
    match t, s with
    | .mk d fs ks, .fld i =>
      rw [modifyAt, stripFlags, stripFlags, stripFlags_modifyIdx _ (fun c => ih c) i fs]
    | .mk d fs ks, .kid i =>
      rw [modifyAt, stripFlags, stripFlags, stripFlags_modifyIdx _ (fun c => ih c) i ks]

theorem stripFlags_modifyIdxE (g : Node → Node × List Event)
    (hg : ∀ c, stripFlags (g c).1 = stripFlags c) :
    ∀ (i : Nat) (l : List Node), stripFlagsL (modifyIdxE g i l).1 = stripFlagsL l := by
  intro i l
  induction l generalizing i with
  | nil => cases i <;> rfl
  | cons x xs ih =>
    cases i with
    | zero =>
      show stripFlagsL ((g x).1 :: xs) = _
      rw [stripFlagsL, stripFlagsL, hg]
    | succ j =>
      show stripFlagsL (x :: (modifyIdxE g j xs).1) = _
      rw [stripFlagsL, stripFlagsL, ih]

theorem stripFlags_modifyAtE (f : Node → Node × List Event)
    (hf : ∀ m, stripFlags (f m).1 = stripFlags m) :
    ∀ (p : List Step) (t : Node), stripFlags (modifyAtE f t p).1 = stripFlags t := by
  intro p
  induction p with
  | nil =>
    intro t
    rw [modifyAtE]
    exact hf t
  | cons s a ih =>
    intro t
    match t, s with
    | .mk d fs ks, .fld i =>
      show stripFlags (Node.mk d (modifyIdxE (fun c => modifyAtE f c a) i fs).1 ks) = _
      rw [stripFlags, stripFlags, stripFlags_modifyIdxE _ (fun c => ih c) i fs]
    | .mk d fs ks, .kid i =>
      show stripFlags (Node.mk d fs (modifyIdxE (fun c => modifyAtE f c a) i ks).1) = _
      rw [stripFlags, stripFlags, stripFlags_modifyIdxE _ (fun c => ih c) i ks]

/-- C4 (amended): calling add_child on an initialized node n with an
ancestor-or-self a of n as the new child returns the CycleError before any
mutation: no child is appended, no parent reassigned, no name changed — the
tree is unchanged up to flag state.  (Byte-for-byte equality fails: the
update bracket that AddChild opens around the rejected attempt clears the
transient flags of n's subtree and its close emits one `updated`
notification, as the counterexample shows; InsertChild wraps the identical
check the same way, node.go:522-534.) -/
theorem c4_cycle_check_rejects (t : Node) (p q : List Step) (n : Node)
    (hp : getAt t p = some n) (hpref : isPref q p = true) (hths : n.thisNil = false) :
    (addChildAncestorAt t p q).map (fun r => r.2.2) = some (some .cycleError) ∧
    (addChildAncestorAt t p q).map (fun r => stripFlags r.1) = some (stripFlags t) := by
  have hne : ¬n.thisNil = true := by rw [hths]; exact Bool.false_ne_true
  constructor
  · simp only [addChildAncestorAt, hp]
    rw [if_pos hpref, if_neg hne]
    rfl
  · simp only [addChildAncestorAt, hp]
    rw [if_pos hpref]
    simp only [Option.map_some']
    congr 1
    exact (stripFlags_modifyAtE _ (fun m => stripFlags_updateEnd m _ []) p _).trans
      (stripFlags_modifyAt _ (fun m => stripFlags_updateStart m) p t)

theorem c4_cycle_check_rejects_witness :
    (addChildAncestorAt (Node.mk { uniqueNm := S "r", ths := true } []
        [Node.mk { uniqueNm := S "a", ths := true } [] []]) [Step.kid 0] []).map
      (fun r => r.2.2) = some (some .cycleError) ∧
    (addChildAncestorAt (Node.mk { uniqueNm := S "r", ths := true } []
        [Node.mk { uniqueNm := S "a", ths := true } [] []]) [Step.kid 0] []).map
      (fun r => stripFlags r.1) =
      some (stripFlags (Node.mk { uniqueNm := S "r", ths := true } []
        [Node.mk { uniqueNm := S "a", ths := true } [] []])) :=
  c4_cycle_check_rejects
    (Node.mk { uniqueNm := S "r", ths := true } [] [Node.mk { uniqueNm := S "a", ths := true } [] []])
    [Step.kid 0] [] (Node.mk { uniqueNm := S "a", ths := true } [] []) rfl rfl (by decide)

/-- C4 counterexample: with the child node a carrying its ChildAdded flag
(the normal state right after it was added), the rejected
add_child(a-child, root) still clears that flag and emits an `updated`
notification, so the tree is not byte-for-byte unchanged. -/
theorem c4_counterexample :
    (addChildAncestorAt (Node.mk { uniqueNm := S "r", ths := true } []
        [Node.mk { uniqueNm := S "a", ths := true, flags := { childAdded := true } } [] []])
      [Step.kid 0] []).map (fun r => r.2.2) = some (some .cycleError) ∧
    (addChildAncestorAt (Node.mk { uniqueNm := S "r", ths := true } []
        [Node.mk { uniqueNm := S "a", ths := true, flags := { childAdded := true } } [] []])
      [Step.kid 0] []).map (fun r => r.1) ≠
      some (Node.mk { uniqueNm := S "r", ths := true } []
        [Node.mk { uniqueNm := S "a", ths := true, flags := { childAdded := true } } [] []]) ∧
    (addChildAncestorAt (Node.mk { uniqueNm := S "r", ths := true } []
        [Node.mk { uniqueNm := S "a", ths := true, flags := { childAdded := true } } [] []])
      [Step.kid 0] []).map (fun r => r.2.1) = some [⟨.updated, S "a"⟩] := by
  refine ⟨by decide, by decide, by decide⟩

/-- A child node freshly constructed by the reconcile step: a new object of
the requested type, InitName'd with the requested (unique) name and parented
to the node being configured. -/
def freshNode (ty un : List Char) : Node :=
  .mk { nm := un, uniqueNm := setUniqueName un, typ := ty, ths := true, parSet := true } [] []

/-- Modelled from the spec: `Slice.Config` (slice.go, not vendored here)
reconciles the child list to a target (type, name) shape, "reusing existing
children whose type and name already match by position to minimize churn,
constructing new ones and deleting surplus ones otherwise" (§4.1
reconcile_children); CopyMakeChildrenFrom invokes it with unique names
(node.go:1347). -/
def configKidsFrom (olds : List Node) : Nat → List (List Char × List Char) → List Node
  | _, [] => []
  | i, (ty, un) :: rest =>
    (match olds.get? i with
     | some c => if c.d.typ = ty ∧ c.uniqueNm = un then c else freshNode ty un
     | none => freshNode ty un) :: configKidsFrom olds (i + 1) rest

/-- Translates the SetNameRaw pass of CopyMakeChildrenFrom (node.go:1348-1351):
restore each reconciled child's plain name from the corresponding source
child. -/
def zipSetNm : List Node → List Node → List Node
  | [], _ => []
  | ks, [] => ks
  | k :: ks, f :: fsrc => mapRootD (fun d => { d with nm := f.nm }) k :: zipSetNm ks fsrc

/-- Translates CopyMakeChildrenFrom (node.go:1339-1358): with a non-empty
source, reconcile the children to the source's (type, unique-name) shape and
restore the plain names; with an empty source, DeleteChildren(true) clears
the child list.  The copy path's own update brackets and the teardown of
children it discards are not tracked here — the claims on CopyFrom observe
the returned error and the mismatch path, neither of which reaches this
function. -/
def copyMakeChildrenFrom (t src : Node) : Node :=
  match t with
  | .mk d fs ks =>
    if 0 < src.ks.length then
      .mk d fs (zipSetNm (configKidsFrom ks 0 (src.ks.map (fun k => (k.d.typ, k.uniqueNm)))) src.ks)
    else
      .mk { d with flags := { d.flags with childrenDeleted := true } } fs []

mutual
/-- Translates CopyFromRaw (node.go:1402-1412): reconcile children, replace
the property map with a shallow copy of the source's (DeleteAllProps then
CopyPropsFrom with deep=false, whose error path is unreachable for a shallow
copy and whose result AddChildCheck's caller ignores anyway), copy declared
fields — of which the model carries only the Ki-typed embedded fields, copied
pairwise with CopyFrom per the `deep-follow-into-nested-node` policy
(node.go:1383-1388) — and recurse into the children pairwise. -/
def copyFromRaw (t src : Node) : Node :=
  let t1 := copyMakeChildrenFrom t src
  let t2 := mapRootD (fun d => { d with props := src.d.props }) t1
  let fs2 := copyFieldsPairs t2.fs src.fs
  let ks2 := copyRawPairs t2.ks src.ks
  Node.mk t2.d fs2 ks2
termination_by (nsize src, 0)
decreasing_by
  · exact Prod.Lex.left _ _ (nsizeL_fs_lt src)
  · exact Prod.Lex.left _ _ (nsizeL_ks_lt src)
def copyFieldsPairs : List Node → List Node → List Node
  | [], _ => []
  | ks, [] => ks
  | k :: ks, f :: fsrc => (copyFrom k f).1 :: copyFieldsPairs ks fsrc
termination_by _ fsrc => (nsizeL fsrc, 2 + fsrc.length)
decreasing_by
  · rw [nsizeL]
    rcases Nat.eq_zero_or_pos (nsizeL fsrc) with h | h
    · rw [h]
      exact Prod.Lex.right _ (by omega)
    · exact Prod.Lex.left _ _ (by omega)
  · rw [nsizeL]
    have := nsize_pos f
    exact Prod.Lex.left _ _ (by omega)
def copyRawPairs : List Node → List Node → List Node
  | [], _ => []
  | ks, [] => ks
  | k :: ks, f :: fsrc => copyFromRaw k f :: copyRawPairs ks fsrc
termination_by _ fsrc => (nsizeL fsrc, 2 + fsrc.length)
decreasing_by
  · rw [nsizeL]
    rcases Nat.eq_zero_or_pos (nsizeL fsrc) with h | h
    · rw [h]
      exact Prod.Lex.right _ (by omega)
    · exact Prod.Lex.left _ _ (by omega)
  · rw [nsizeL]
    have := nsize_pos f
    exact Prod.Lex.left _ _ (by omega)
/-- Translates CopyFrom (node.go:1300-1329): a nil source cannot arise for
the model's total values; a concrete-type mismatch returns the TypeMismatch
error before UpdateStart, leaving the destination untouched; otherwise the
node is flagged NodeCopied inside an update bracket and CopyFromRaw runs,
which never produces an error (node.go:1402-1412 returns nil and its callees'
results are ignored).  `Ptr` path-reference fields do not exist in the model,
so GetPtrPaths / UpdatePtrPaths / SetPtrsFmPaths have nothing to do; the
bracket's emissions are not tracked. -/
def copyFrom (t src : Node) : Node × Option Err :=
  if t.d.typ ≠ src.d.typ then (t, some .typeMismatch)
  else
    let updt := (updateStart t).1
    let t1 := mapRootD (fun d => { d with flags := { d.flags with nodeCopied := true } }) (updateStart t).2
    let t2 := copyFromRaw t1 src
    ((updateEnd t2 updt []).1, none)
termination_by (nsize src, 1)
decreasing_by
  exact Prod.Lex.right _ (by omega)
end

/-- C7: copy_from returns a TypeMismatch error exactly when the destination
and source concrete types differ, and in that case the destination — its
children, properties and fields — is byte-for-byte untouched (the guard
fires before any mutation); when the types match, no TypeMismatch error is
returned. -/
theorem c7_copyFrom_type_guard (t src : Node) :
    (t.d.typ ≠ src.d.typ → copyFrom t src = (t, some .typeMismatch)) ∧
    (t.d.typ = src.d.typ → (copyFrom t src).2 = none) := by
  constructor
  · intro h
    rw [copyFrom, if_pos h]
  · intro h
    rw [copyFrom, if_neg (not_not_intro h)]

theorem c7_copyFrom_type_guard_witness :
    copyFrom (Node.mk { typ := S "A", ths := true } [] []) (Node.mk { typ := S "B", ths := true } [] [])
      = (Node.mk { typ := S "A", ths := true } [] [], some .typeMismatch) ∧
    (copyFrom (Node.mk { typ := S "A", ths := true } [] [])
      (Node.mk { typ := S "A", nm := S "s", ths := true } [] [])).2 = none :=
  ⟨(c7_copyFrom_type_guard (Node.mk { typ := S "A", ths := true } [] [])
      (Node.mk { typ := S "B", ths := true } [] [])).1 (by decide),
   (c7_copyFrom_type_guard (Node.mk { typ := S "A", ths := true } [] [])
      (Node.mk { typ := S "A", nm := S "s", ths := true } [] [])).2 (by decide)⟩

/-- Translates JSONTypePrefix (node.go:1481). -/
def jsonTypePrefix : List Char := S "\x7b\"ki.RootType\": "

/-- Translates JSONTypeSuffix (node.go:1484). -/
def jsonTypeSuffix : List Char := S "\x7d\n"

def encStr (s : List Char) : List Char := '"' :: s ++ ['"']

def encPVal : PVal → List Char
  | .str s => 's' :: encStr s
  | .num n => 'n' :: natChars n ++ [';']

def encPropsList : List (List Char × PVal) → List Char
  | [] => []
  | kv :: rest => encStr kv.1 ++ encPVal kv.2 ++ encPropsList rest

def encProps (ps : List (List Char × PVal)) : List Char := '<' :: encPropsList ps ++ ['>']

mutual
/-- Modelled from the spec: the "generic structural encoding of the tree
body" produced by the external JSON codec for a Node — an injective rendering
of the serialized fields (Nm, UniqueNm, the concrete type recorded by the
Slice codec, Props, embedded Ki fields, Kids; Flag, Par, NodeSig and Ths
carry json:"-" and are not emitted).  Names are assumed quote-free. -/
def encNode : Node → List Char
  | .mk d fs ks =>
    '(' :: encStr d.nm ++ encStr d.uniqueNm ++ encStr d.typ ++ encProps d.props ++
      '[' :: encList fs ++ ']' :: '[' :: encList ks ++ [']', ')']
def encList : List Node → List Char
  | [] => []
  | t :: ts => encNode t ++ encList ts
end

def takeStr : List Char → Option (List Char × List Char)
  | [] => none
  | '"' :: rest => some ([], rest)
  | c :: rest =>
    match takeStr rest with
    | some (s, r) => some (c :: s, r)
    | none => none

def parseStr : List Char → Option (List Char × List Char)
  | '"' :: rest => takeStr rest
  | _ => none

def isDigit (c : Char) : Bool := '0' ≤ c && c ≤ '9'

def charsToNat (cs : List Char) : Nat := cs.foldl (fun a c => a * 10 + (c.toNat - '0'.toNat)) 0

def parsePVal : List Char → Option (PVal × List Char)
  | 's' :: rest => (parseStr rest).map (fun r => (.str r.1, r.2))
  | 'n' :: rest =>
    match (rest.dropWhile isDigit) with
    | ';' :: r2 => some (.num (charsToNat (rest.takeWhile isDigit)), r2)
    | _ => none
  | _ => none

def parsePropsLoop : Nat → List Char → Option (List (List Char × PVal) × List Char)
  | _, '>' :: rest => some ([], rest)
  | 0, _ => none
  | fuel + 1, cs =>
    match parseStr cs with
    | some (k, r1) =>
      match parsePVal r1 with
      | some (v, r2) => (parsePropsLoop fuel r2).map (fun r => ((k, v) :: r.1, r.2))
      | none => none
    | none => none

def parseProps : List Char → Option (List (List Char × PVal) × List Char)
  | '<' :: rest => parsePropsLoop rest.length rest
  | _ => none

mutual
/-- Modelled from the spec: the decoder for the body encoding above, the
inverse the external JSON codec applies when decoding into a node.  Decoded
nodes carry zero flag state and nil Ths/Par, as json:"-" fields keep their
zero values.  The fuel argument (the input length at the top call) bounds
recursion depth; exhaustion reads as a failed decode. -/
def parseNode : Nat → List Char → Option (Node × List Char)
  | 0, _ => none
  | fuel + 1, '(' :: cs =>
    match parseStr cs with
    | some (nm0, r1) =>
      match parseStr r1 with
      | some (un, r2) =>
        match parseStr r2 with
        | some (ty, r3) =>
          match parseProps r3 with
          | some (ps, r4) =>
            match r4 with
            | '[' :: r5 =>
              match parseNodes fuel r5 with
              | some (flds, r6) =>
                match r6 with
                | '[' :: r7 =>
                  match parseNodes fuel r7 with
                  | some (kids, r8) =>
                    match r8 with
                    | ')' :: r9 =>
                      some (.mk { nm := nm0, uniqueNm := un, typ := ty, props := ps } flds kids, r9)
                    | _ => none
                  | none => none
                | _ => none
              | none => none
            | _ => none
          | none => none
        | none => none
      | none => none
    | none => none
  | _ + 1, _ => none
def parseNodes : Nat → List Char → Option (List Node × List Char)
  | _, ']' :: rest => some ([], rest)
  | 0, _ => none
  | fuel + 1, cs =>
    match parseNode fuel cs with
    | some (n, r1) => (parseNodes fuel r1).map (fun r => (n :: r.1, r.2))
    | none => none
end

/-- bytes.HasPrefix: the first list is an initial segment of the second. -/
def hasPref : List Char → List Char → Bool
  | [], _ => true
  | _ :: _, [] => false
  | x :: xs, y :: ys => x = y && hasPref xs ys

/-- bytes.Index: index of the first occurrence of the pattern. -/
def findSub (needle : List Char) : List Char → Option Nat
  | [] => if needle.isEmpty then some 0 else none
  | c :: rest =>
    if hasPref needle (c :: rest) then some 0
    else (findSub needle rest).map (· + 1)

/-- strings.TrimSpace's cutset, for the byte range the encodings use. -/
def isWS (c : Char) : Bool :=
  c = ' ' || c = '\t' || c = '\n' || c = '\r' || c = '\x0b' || c = '\x0c'

def trimBy (p : Char → Bool) (s : List Char) : List Char :=
  ((s.dropWhile p).reverse.dropWhile p).reverse

def sliceL (s : List Char) (a b : Nat) : List Char := (s.drop a).take (b - a)

/-- Translates WriteJSON (node.go:1486-1512): after ThisCheck, emit the type
line `JSONTypePrefix + "<fully-qualified type>"}\n` followed by the marshaled
body. -/
def writeJSON (t : Node) : Except Err (List Char) :=
  if t.thisNil then Except.error .selfNotInitialized
  else Except.ok ((jsonTypePrefix ++ '"' :: t.d.typ ++ '"' :: '\x7d' :: '\n' :: []) ++ encNode t)

/-- json.Unmarshal into an existing initialized root: the decoded payload
replaces the serialized fields while the json:"-" fields (Flag, Par, Ths)
and the root's concrete type survive. -/
def mergeDecoded (r pr : Node) : Node :=
  .mk { pr.d with typ := r.d.typ, flags := r.d.flags, ths := r.d.ths, parSet := r.d.parSet }
    pr.fs pr.ks

mutual
/-- Translates ParentAllChildren (node.go:1652-1663), with the SetParent
broadcast fused into the walk: SetParent writes the parent's Updating state
across the child's whole subtree (unless the parent is OnlySelfUpdate) and
sets its Par pointer; the walk then revisits the subtree, where every
re-broadcast writes the value already present, so the net effect is the
innermost applicable pending broadcast `pend` threaded down here (`none`
when no ancestor has broadcast). -/
def pacGo : Option Bool → Node → Node
  | pend, .mk d fs ks =>
    let d1 := match pend with
      | some b => { d with flags := { d.flags with updating := b } }
      | none => d
    let pendKids := if d1.flags.onlySelfUpdate then pend else some d1.flags.updating
    .mk d1 (pacL pend fs) (pacKids pendKids ks)
def pacKids : Option Bool → List Node → List Node
  | _, [] => []
  | pend, k :: ks =>
    mapRootD (fun kd => { kd with parSet := true }) (pacGo pend k) :: pacKids pend ks
def pacL : Option Bool → List Node → List Node
  | _, [] => []
  | pend, k :: ks => pacGo pend k :: pacL pend ks
end

def parentAllChildren (t : Node) : Node := pacGo none t

/-- Translates ReadNewJSON (node.go:1565-1594).  A present type prefix is
required; the type name between the prefix's closing quote and the suffix is
space- and quote-trimmed and resolved against the type registry (`reg`, the
external kit.Types table, modelled from the spec as the set of registered
names — an unknown name is the function's error return, rendered here as
decodeError; a missing suffix, which would make the Go code slice with a
negative index and panic, is also rendered as decodeError).  A fresh node of
the resolved type is constructed and Init'd, UpdateStart opens a bracket on
it, the body is unmarshaled into it — a failed unmarshal is swallowed by the
Go code, skipping only UnmarshalPost — then ParentAllChildren re-establishes
parent pointers, ChildAdded is flagged and UpdateEnd closes the bracket. -/
def readNewJSON (reg : List (List Char)) (b : List Char) : Except Err Node :=
  if hasPref jsonTypePrefix b then
    match findSub jsonTypeSuffix b with
    | none => Except.error .decodeError
    | some eidx =>
      let stidx := jsonTypePrefix.length + 1
      let bodyidx := eidx + jsonTypeSuffix.length
      let tn := trimBy (fun c => c = '"') (trimBy isWS (sliceL b stidx eidx))
      if reg.any (fun r => r == tn) then
        let root0 : Node := .mk { typ := tn, ths := true } [] []
        let updt := (updateStart root0).1
        let rootS := (updateStart root0).2
        let root1 := match parseNode (b.drop bodyidx).length (b.drop bodyidx) with
          | some (pr, _) => parentAllChildren (mergeDecoded rootS pr)
          | none => rootS
        let root2 := mapRootD (fun d => { d with flags := { d.flags with childAdded := true } }) root1
        Except.ok (updateEnd root2 updt []).1
      else Except.error .decodeError
  else Except.error .decodeError

/-- The first line of an output byte string (without its newline). -/
def firstLine (s : List Char) : List Char := s.takeWhile (fun c => !(c = '\n'))

deriving instance DecidableEq for Except

/-- The spec's concrete scenario: a two-node tree whose root's concrete type
is (fully-qualified) "Demo", with one child named "a". -/
def demoNode : Node :=
  .mk { nm := S "root", uniqueNm := S "root", typ := S "Demo", ths := true } []
    [.mk { nm := S "a", uniqueNm := S "a" } [] []]

theorem takeWhile_append_stop (p : Char → Bool) (xs ys : List Char) (c : Char)
    (hxs : ∀ x ∈ xs, p x = true) (hc : p c = false) :
    (xs ++ c :: ys).takeWhile p = xs := by
  induction xs with
  | nil =>
    rw [List.nil_append]
    simp [List.takeWhile_cons, hc]
  | cons x xs ih =>
    rw [List.cons_append]
    have hx := hxs x (List.mem_cons_self _ _)
    simp only [List.takeWhile_cons, hx, if_true]
    rw [ih (fun z hz => hxs z (List.mem_cons_of_mem _ hz))]

theorem get?_append_len (xs : List Char) (c : Char) (ys : List Char) :
    (xs ++ c :: ys).get? xs.length = some c := by
  rw [List.get?_append_right (Nat.le_refl _)]
  simp

/-- C5 (amended): for every initialized tree whose root's fully-qualified
concrete type name is "Demo", WriteJSON's first output line is exactly the
bytes `{"ki.RootType": "Demo"}` followed by a newline (the claim's key
"root-type" is not what the code emits); and decoding the emitted bytes of
the concrete two-node demo tree through ReadNewJSON reproduces a tree with
the same one child named "a" whose parent pointer is re-established. -/
theorem c5_header_and_roundtrip :
    (∀ t : Node, t.thisNil = false → t.d.typ = S "Demo" →
      (writeJSON t).map firstLine = .ok (S "\x7b\"ki.RootType\": \"Demo\"\x7d") ∧
      (writeJSON t).map (fun out => out.get? (firstLine out).length) = .ok (some '\n')) ∧
    ((writeJSON demoNode).bind (readNewJSON [S "Demo"])).map
      (fun r => (r.ks.map Node.nm, r.ks.map (fun k => k.d.parSet))) = .ok ([S "a"], [true]) := by
  constructor
  · intro t ht hd
    have hne : ¬t.thisNil = true := by rw [ht]; exact Bool.false_ne_true
    have hcat : jsonTypePrefix ++ '"' :: S "Demo" ++ '"' :: '\x7d' :: '\n' :: []
        = S "\x7b\"ki.RootType\": \"Demo\"\x7d" ++ ['\n'] := by decide
    have hout : (jsonTypePrefix ++ '"' :: t.d.typ ++ '"' :: '\x7d' :: '\n' :: []) ++ encNode t
        = S "\x7b\"ki.RootType\": \"Demo\"\x7d" ++ '\n' :: encNode t := by
      rw [hd, hcat, List.append_assoc, List.singleton_append]
    have hfl : firstLine ((jsonTypePrefix ++ '"' :: t.d.typ ++ '"' :: '\x7d' :: '\n' :: []) ++ encNode t)
        = S "\x7b\"ki.RootType\": \"Demo\"\x7d" := by
      rw [hout, firstLine]
      exact takeWhile_append_stop _ _ _ '\n' (by decide) (by decide)
    constructor
    · rw [writeJSON, if_neg hne]
      simp only [Except.map]
      rw [hfl]
    · rw [writeJSON, if_neg hne]
      simp only [Except.map]
      rw [hfl, hout, get?_append_len]
  · decide

theorem c5_header_and_roundtrip_witness :
    (writeJSON demoNode).map firstLine = .ok (S "\x7b\"ki.RootType\": \"Demo\"\x7d") :=
  ((c5_header_and_roundtrip).1 demoNode (by decide) (by decide)).1

/-- C5 counterexample: the emitted header key is "ki.RootType", so the first
line is not the claim's exact bytes with key "root-type". -/
theorem c5_counterexample :
    (writeJSON demoNode).map firstLine ≠ .ok (S "\x7b\"root-type\": \"Demo\"\x7d") := by
  decide

/-- strings.Split on a one-character separator. -/
def splitC (sep : Char) : List Char → List (List Char)
  | [] => [[]]
  | c :: cs =>
    if c = sep then [] :: splitC sep cs
    else
      match splitC sep cs with
      | h :: rest => (c :: h) :: rest
      | [] => [[c]]

/-- Translates the recursion of PathUnique (node.go:369-378), oriented
top-down along an address: each child step contributes "/" and its unique
name, each embedded-field step "." and its unique name. -/
def restPath : Node → List Step → Option (List Char)
  | _, [] => some []
  | t, .kid i :: a =>
    match t.ks.get? i with
    | some c => (restPath c a).map (fun r => '/' :: c.uniqueNm ++ r)
    | none => none
  | t, .fld i :: a =>
    match t.fs.get? i with
    | some f => (restPath f a).map (fun r => '.' :: f.uniqueNm ++ r)
    | none => none

/-- PathUnique of the node at an address under root `t`: "/" plus the root's
unique name plus the separators and names along the address. -/
def pathUniqueAt (t : Node) (a : List Step) : Option (List Char) :=
  (restPath t a).map (fun r => '/' :: t.uniqueNm ++ r)

/-- Translates KiFieldByName (node.go:312-322): reflection's FieldByName on
the Go struct field name, which Init made the field node's Nm; the struct's
field names are distinct, matching the first-match search here. -/
def kiFieldByName (t : Node) (name : List Char) : Option Node :=
  t.fs.find? (fun f => f.nm == name)

/-- Modelled from the spec: Slice.IndexByUniqueName (slice.go, not vendored)
is the by-unique-name child lookup (§2 Ordered Child Collection), returning
the first child bearing the name, scanned from index 0 as FindPathUnique
requests. -/
def elemByUniqueName (ks : List Node) (un : List Char) : Option Node :=
  ks.find? (fun k => k.uniqueNm == un)

/-- Translates the inner field loop of FindPathUnique (node.go:424-431). -/
def fieldsLoop : Node → List (List Char) → Option Node
  | curn, [] => some curn
  | curn, fe :: rest =>
    match kiFieldByName curn fe with
    | some fk => fieldsLoop fk rest
    | none => none

/-- Translates the segment loop of FindPathUnique (node.go:409-439): skip
empty segments; skip the segment naming the starting node itself (only at
positions 0 and 1); a segment with dots resolves a child then a chain of
embedded fields; a plain segment resolves a child by unique name. -/
def findLoop : Node → List (List Char) → Nat → Option Node
  | curn, [], _ => some curn
  | curn, pe :: rest, i =>
    if pe.length = 0 then findLoop curn rest (i + 1)
    else if i ≤ 1 ∧ curn.uniqueNm = pe then findLoop curn rest (i + 1)
    else if '.' ∈ pe then
      match splitC '.' pe with
      | [] => none
      | f0 :: fels =>
        match elemByUniqueName curn.ks f0 with
        | some c =>
          match fieldsLoop c fels with
          | some m => findLoop m rest (i + 1)
          | none => none
        | none => none
    else
      match elemByUniqueName curn.ks pe with
      | some c => findLoop c rest (i + 1)
      | none => none

/-- Translates FindPathUnique (node.go:402-441) as called on a tree root
(`Par == nil`, so the TrimPrefix of the caller's own path does not apply):
trim space and quotes, split the path on "/", and run the segment loop. -/
def findPathUnique (t : Node) (path : List Char) : Option Node :=
  findLoop t (splitC '/' (trimBy (fun c => c = '"') (trimBy isWS path))) 0

/-- Characters legal inside a unique name for unambiguous path resolution:
not a separator, not a quote, not space (SetUniqueName strips the
separators; quotes and spaces would be eaten by FindPathUnique's trims). -/
def goodChar (c : Char) : Bool := !(c = '/' || c = '.' || c = '"' || isWS c)

def namesDistinct : List (List Char) → Bool
  | [] => true
  | n :: rest => !(rest.any (fun m => m == n)) && namesDistinct rest

mutual
/-- The naming discipline an initialized tree maintains and under which path
round-trips can work: every unique name is made of legal characters, sibling
unique names are nonempty and pairwise distinct, and embedded-field
pseudo-children carry their (distinct, nonempty) Go field name as both Nm
and UniqueNm, as Init establishes. -/
def wellNamed : Node → Bool
  | .mk d fs ks =>
    d.uniqueNm.all goodChar &&
    namesDistinct (ks.map Node.uniqueNm) && namesDistinct (fs.map Node.nm) &&
    wellKidsL ks && wellFldsL fs
def wellKidsL : List Node → Bool
  | [] => true
  | k :: ks => !k.uniqueNm.isEmpty && wellNamed k && wellKidsL ks
def wellFldsL : List Node → Bool
  | [] => true
  | f :: fs => !f.nm.isEmpty && (f.nm == f.uniqueNm) && wellNamed f && wellFldsL fs
end

/-- The address does not start inside an embedded field hung directly off the
root — the shape on which the round-trip holds. -/
def rootSafeB : List Step → Bool
  | [] => true
  | .kid _ :: _ => true
  | .fld _ :: _ => false

def allFldB : List Step → Bool
  | [] => true
  | .fld _ :: a => allFldB a
  | .kid _ :: _ => false

/-- Split an address into its maximal leading run of field steps and the
remainder (which is empty or starts with a child step). -/
def fldSteps : List Step → List Step × List Step
  | [] => ([], [])
  | .fld i :: a => ((.fld i) :: (fldSteps a).1, (fldSteps a).2)
  | .kid i :: a => ([], .kid i :: a)

/-- The path segments remaining after the first one: nothing, or the
"/"-split of what follows the next slash. -/
def segsAfter : List Char → List (List Char)
  | [] => []
  | _ :: rest => splitC '/' rest

/-- The "."-joined rendering of a run of field names, as PathUnique emits it. -/
def dotJoin : List (List Char) → List Char
  | [] => []
  | n :: ns => '.' :: n ++ dotJoin ns

theorem splitC_noc (sep : Char) (s : List Char) (h : ∀ c ∈ s, ¬c = sep) :
    splitC sep s = [s] := by
  induction s with
  | nil => rfl
  | cons c cs ih =>
    rw [splitC, if_neg (h c (List.mem_cons_self _ _)),
      ih (fun z hz => h z (List.mem_cons_of_mem _ hz))]

theorem splitC_app (sep : Char) (xs ys : List Char) (h : ∀ c ∈ xs, ¬c = sep) :
    splitC sep (xs ++ sep :: ys) = xs :: splitC sep ys := by
  induction xs with
  | nil => rw [List.nil_append, splitC, if_pos rfl]
  | cons c cs ih =>
    rw [List.cons_append, splitC, if_neg (h c (List.mem_cons_self _ _)),
      ih (fun z hz => h z (List.mem_cons_of_mem _ hz))]

theorem splitC_dot_dotJoin (x : List Char) (nms : List (List Char))
    (hx : ∀ c ∈ x, ¬c = '.') (hn : ∀ nm0 ∈ nms, ∀ c ∈ nm0, ¬c = '.') :
    splitC '.' (x ++ dotJoin nms) = x :: nms := by
  induction nms generalizing x with
  | nil =>
    rw [dotJoin, List.append_nil]
    exact splitC_noc '.' x hx
  | cons n ns ih =>
    rw [dotJoin, List.cons_append, splitC_app '.' x (n ++ dotJoin ns) hx,
      ih n (hn n (List.mem_cons_self _ _)) (fun z hz => hn z (List.mem_cons_of_mem _ hz))]

theorem wn_parts (d : NodeData) (fs ks : List Node) (h : wellNamed (.mk d fs ks) = true) :
    d.uniqueNm.all goodChar = true ∧ namesDistinct (ks.map Node.uniqueNm) = true ∧
    namesDistinct (fs.map Node.nm) = true ∧ wellKidsL ks = true ∧ wellFldsL fs = true := by
  rw [wellNamed] at h
  simp only [Bool.and_eq_true] at h
  exact ⟨h.1.1.1.1, h.1.1.1.2, h.1.1.2, h.1.2, h.2⟩

theorem wellKidsL_mem (ks : List Node) (c : Node) (h : wellKidsL ks = true) (hm : c ∈ ks) :
    c.uniqueNm.isEmpty = false ∧ wellNamed c = true := by
  induction ks with
  | nil => cases hm
  | cons k ks ih =>
    rw [wellKidsL] at h
    simp only [Bool.and_eq_true, Bool.not_eq_true'] at h
    rcases List.mem_cons.1 hm with rfl | hm2
    · exact ⟨h.1.1, h.1.2⟩
    · exact ih h.2 hm2

theorem wellFldsL_mem (fs : List Node) (f : Node) (h : wellFldsL fs = true) (hm : f ∈ fs) :
    f.nm.isEmpty = false ∧ f.nm = f.uniqueNm ∧ wellNamed f = true := by
  induction fs with
  | nil => cases hm
  | cons g gs ih =>
    rw [wellFldsL] at h
    simp only [Bool.and_eq_true, Bool.not_eq_true'] at h
    rcases List.mem_cons.1 hm with rfl | hm2
    · exact ⟨h.1.1.1, by simpa using h.1.1.2, h.1.2⟩
    · exact ih h.2 hm2

theorem find_first_by (key : Node → List Char) (l : List Node) (j : Nat) (c : Node)
    (hd : namesDistinct (l.map key) = true) (hj : l.get? j = some c) :
    l.find? (fun k => key k == key c) = some c := by
  induction l generalizing j with
  | nil => cases j <;> cases hj
  | cons x xs ih =>
    rw [List.map_cons, namesDistinct] at hd
    simp only [Bool.and_eq_true, Bool.not_eq_true'] at hd
    cases j with
    | zero =>
      cases hj
      simp [List.find?]
    | succ j2 =>
      have hmem : c ∈ xs := List.get?_mem hj
      have hne : (key x == key c) = false := by
        by_cases he : key x = key c
        · exfalso
          have : (xs.map key).any (fun m => m == key x) = true := by
            rw [List.any_eq_true]
            exact ⟨key c, List.mem_map_of_mem key hmem, by rw [he]; exact beq_self_eq_true _⟩
          rw [this] at hd
          exact absurd hd.1 (by decide)
        · exact beq_eq_false_iff_ne.mpr (fun hx => he hx)
      rw [List.find?]
      rw [hne]
      exact ih j2 hd.2 hj

theorem dropWhile_no (p : Char → Bool) (s : List Char) (h : ∀ c ∈ s, p c = false) :
    s.dropWhile p = s := by
  cases s with
  | nil => rfl
  | cons c cs =>
    rw [List.dropWhile_cons, h c (List.mem_cons_self _ _)]
    simp

theorem trimBy_id (p : Char → Bool) (s : List Char) (h : ∀ c ∈ s, p c = false) :
    trimBy p s = s := by
  rw [trimBy, dropWhile_no p s h,
    dropWhile_no p s.reverse (fun c hc => h c (List.mem_reverse.mp hc)), List.reverse_reverse]

theorem getAt_append (xs ys : List Step) : ∀ t : Node,
    getAt t (xs ++ ys) = (getAt t xs).bind (fun u => getAt u ys) := by
  induction xs with
  | nil => intro t; rfl
  | cons s xs ih =>
    intro t
    match t, s with
    | .mk d fs ks, .fld i =>
      simp only [List.cons_append, getAt, Node.fs_mk]
      cases fs.get? i
      · rfl
      · exact ih _
    | .mk d fs ks, .kid i =>
      simp only [List.cons_append, getAt, Node.ks_mk]
      cases ks.get? i
      · rfl
      · exact ih _

theorem restPath_kid (t : Node) (i : Nat) (a2 : List Step) (c : Node)
    (h : t.ks.get? i = some c) :
    restPath t (.kid i :: a2) = (restPath c a2).map (fun r => '/' :: c.uniqueNm ++ r) := by
  rw [restPath, h]

theorem restPath_fld (t : Node) (i : Nat) (a2 : List Step) (f : Node)
    (h : t.fs.get? i = some f) :
    restPath t (.fld i :: a2) = (restPath f a2).map (fun r => '.' :: f.uniqueNm ++ r) := by
  rw [restPath, h]

theorem getAt_kid (t : Node) (i : Nat) (a : List Step) (c : Node) (h : t.ks.get? i = some c) :
    getAt t (.kid i :: a) = getAt c a := by
  rw [getAt, h]

theorem getAt_fld (t : Node) (i : Nat) (a : List Step) (f : Node) (h : t.fs.get? i = some f) :
    getAt t (.fld i :: a) = getAt f a := by
  rw [getAt, h]

theorem restPath_shape (a : List Step) (t : Node) (r : List Char) (hroot : rootSafeB a = true)
    (hr : restPath t a = some r) : r = [] ∨ ∃ rest, r = '/' :: rest := by
  cases a with
  | nil =>
    rw [restPath] at hr
    cases hr
    exact Or.inl rfl
  | cons s a2 =>
    cases s with
    | fld i => exact absurd hroot (by rw [rootSafeB]; exact Bool.false_ne_true)
    | kid i =>
      cases h : t.ks.get? i with
      | none => rw [restPath, h] at hr; cases hr
      | some c =>
        rw [restPath_kid t i a2 c h] at hr
        cases h2 : restPath c a2 with
        | none => rw [h2] at hr; cases hr
        | some r2 =>
          rw [h2, Option.map_some'] at hr
          exact Or.inr ⟨_, (Option.some.inj hr).symm⟩

theorem all_goodChar_mem (s : List Char) (h : s.all goodChar = true) (c : Char) (hc : c ∈ s) :
    goodChar c = true := List.all_eq_true.mp h c hc

theorem restPath_chars : ∀ (a : List Step) (t : Node) (r : List Char), wellNamed t = true →
    restPath t a = some r → ∀ ch ∈ r, ch = '/' ∨ ch = '.' ∨ goodChar ch = true := by
  intro a
  induction a with
  | nil =>
    intro t r hw hr ch hch
    rw [restPath] at hr
    cases hr
    exact absurd hch (List.not_mem_nil ch)
  | cons s a2 ih =>
    intro t r hw hr ch hch
    match t, s with
    | .mk d fs ks, .kid i =>
      cases h : (Node.mk d fs ks).ks.get? i with
      | none => rw [restPath, Node.ks_mk] at hr; simp only [Node.ks_mk] at h; rw [h] at hr; cases hr
      | some c =>
        rw [restPath_kid _ i a2 c h] at hr
        cases h2 : restPath c a2 with
        | none => rw [h2] at hr; cases hr
        | some r2 =>
          rw [h2, Option.map_some'] at hr
          cases hr
          have hwc : wellNamed c = true :=
            (wellKidsL_mem ks c (wn_parts d fs ks hw).2.2.2.1 (List.get?_mem h)).2
          have hch2 : ch = '/' ∨ ch ∈ c.uniqueNm ∨ ch ∈ r2 := by
            simpa using hch
          rcases hch2 with rfl | hcu | hcr
          · exact Or.inl rfl
          · cases c with
            | mk cd cfs cks =>
              exact Or.inr (Or.inr (all_goodChar_mem _ (wn_parts cd cfs cks hwc).1 ch hcu))
          · exact ih c r2 hwc h2 ch hcr
    | .mk d fs ks, .fld i =>
      cases h : (Node.mk d fs ks).fs.get? i with
      | none => rw [restPath, Node.fs_mk] at hr; simp only [Node.fs_mk] at h; rw [h] at hr; cases hr
      | some f =>
        rw [restPath_fld _ i a2 f h] at hr
        cases h2 : restPath f a2 with
        | none => rw [h2] at hr; cases hr
        | some r2 =>
          rw [h2, Option.map_some'] at hr
          cases hr
          have hwf : wellNamed f = true :=
            (wellFldsL_mem fs f (wn_parts d fs ks hw).2.2.2.2 (List.get?_mem h)).2.2
          have hch2 : ch = '.' ∨ ch ∈ f.uniqueNm ∨ ch ∈ r2 := by
            simpa using hch
          rcases hch2 with rfl | hcu | hcr
          · exact Or.inr (Or.inl rfl)
          · cases f with
            | mk fd ffs fks =>
              exact Or.inr (Or.inr (all_goodChar_mem _ (wn_parts fd ffs fks hwf).1 ch hcu))
          · exact ih f r2 hwf h2 ch hcr

theorem goodChar_split (c : Char) (h : goodChar c = true) :
    ¬c = '/' ∧ ¬c = '.' ∧ ¬c = '"' ∧ isWS c = false := by
  rw [goodChar] at h
  simp only [Bool.not_eq_true', Bool.or_eq_false_iff, decide_eq_false_iff_not] at h
  exact ⟨h.1.1.1, h.1.1.2, h.1.2, h.2⟩

theorem wn_root (t : Node) (h : wellNamed t = true) :
    t.uniqueNm.all goodChar = true ∧ namesDistinct (t.ks.map Node.uniqueNm) = true ∧
    namesDistinct (t.fs.map Node.nm) = true ∧ wellKidsL t.ks = true ∧ wellFldsL t.fs = true := by
  cases t with
  | mk d fs ks => exact wn_parts d fs ks h

theorem elem_by_un (ks : List Node) (j : Nat) (c : Node)
    (hd : namesDistinct (ks.map Node.uniqueNm) = true) (hj : ks.get? j = some c) :
    elemByUniqueName ks c.uniqueNm = some c := by
  rw [elemByUniqueName]
  exact find_first_by Node.uniqueNm ks j c hd hj

theorem kiField_eq (t : Node) (j : Nat) (f : Node)
    (hd : namesDistinct (t.fs.map Node.nm) = true) (hj : t.fs.get? j = some f)
    (hnm : f.nm = f.uniqueNm) :
    kiFieldByName t f.uniqueNm = some f := by
  rw [kiFieldByName, ← hnm]
  exact find_first_by Node.nm t.fs j f hd hj

theorem findLoop_nil (curn : Node) (i : Nat) : findLoop curn [] i = some curn := by
  rw [findLoop]

theorem findLoop_skip_empty (curn : Node) (rest : List (List Char)) (i : Nat) :
    findLoop curn ([] :: rest) i = findLoop curn rest (i + 1) := by
  rw [findLoop]
  exact if_pos rfl

theorem findLoop_skip_self (curn : Node) (pe : List Char) (rest : List (List Char)) (i : Nat)
    (h0 : ¬pe.length = 0) (h1 : i ≤ 1) (h2 : curn.uniqueNm = pe) :
    findLoop curn (pe :: rest) i = findLoop curn rest (i + 1) := by
  rw [findLoop, if_neg h0]
  exact if_pos ⟨h1, h2⟩

theorem findLoop_plain (curn : Node) (pe : List Char) (rest : List (List Char)) (i : Nat)
    (h0 : ¬pe.length = 0) (h1 : ¬(i ≤ 1 ∧ curn.uniqueNm = pe)) (hdot : '.' ∉ pe)
    (c : Node) (hc : elemByUniqueName curn.ks pe = some c) :
    findLoop curn (pe :: rest) i = findLoop c rest (i + 1) := by
  rw [findLoop, if_neg h0, if_neg h1, if_neg hdot]
  simp only [hc]

theorem findLoop_dot (curn : Node) (pe : List Char) (rest : List (List Char)) (i : Nat)
    (h0 : ¬pe.length = 0) (h1 : ¬(i ≤ 1 ∧ curn.uniqueNm = pe)) (hdot : '.' ∈ pe)
    (f0 : List Char) (fels : List (List Char)) (hs : splitC '.' pe = f0 :: fels)
    (c : Node) (hc : elemByUniqueName curn.ks f0 = some c)
    (cf : Node) (hf : fieldsLoop c fels = some cf) :
    findLoop curn (pe :: rest) i = findLoop cf rest (i + 1) := by
  rw [findLoop, if_neg h0, if_neg h1, if_pos hdot]
  simp only [hs, hc, hf]

theorem fieldsLoop_nil (curn : Node) : fieldsLoop curn [] = some curn := by
  rw [fieldsLoop]

theorem fieldsLoop_cons (curn : Node) (fe : List Char) (rest : List (List Char)) (fk : Node)
    (h : kiFieldByName curn fe = some fk) :
    fieldsLoop curn (fe :: rest) = fieldsLoop fk rest := by
  rw [fieldsLoop]
  simp only [h]

theorem fldSteps_spec : ∀ a : List Step,
    a = (fldSteps a).1 ++ (fldSteps a).2 ∧ allFldB (fldSteps a).1 = true ∧
    rootSafeB (fldSteps a).2 = true ∧ (fldSteps a).2.length ≤ a.length := by
  intro a
  induction a with
  | nil => exact ⟨rfl, rfl, rfl, Nat.le_refl _⟩
  | cons s a2 ih =>
    cases s with
    | kid i => exact ⟨rfl, rfl, rfl, Nat.le_refl _⟩
    | fld i =>
      refine ⟨?_, ?_, ih.2.2.1, Nat.le_succ_of_le ih.2.2.2⟩
      · rw [fldSteps]
        exact congrArg (Step.fld i :: ·) ih.1
      · rw [fldSteps]
        exact ih.2.1

theorem dotJoin_chars (nms : List (List Char))
    (h : ∀ nm0 ∈ nms, ∀ ch ∈ nm0, goodChar ch = true) :
    ∀ ch ∈ dotJoin nms, ch = '.' ∨ goodChar ch = true := by
  induction nms with
  | nil => intro ch hch; exact absurd hch (List.not_mem_nil ch)
  | cons n ns ih =>
    intro ch hch
    rw [dotJoin] at hch
    have hch2 : ch = '.' ∨ ch ∈ n ∨ ch ∈ dotJoin ns := by
      simpa using hch
    rcases hch2 with rfl | hn | hns
    · exact Or.inl rfl
    · exact Or.inr (h n (List.mem_cons_self _ _) ch hn)
    · exact ih (fun z hz => h z (List.mem_cons_of_mem _ hz)) ch hns

theorem seg_no_slash (un : List Char) (nms : List (List Char))
    (hu : un.all goodChar = true)
    (hn : ∀ nm0 ∈ nms, ∀ ch ∈ nm0, goodChar ch = true) :
    ∀ ch ∈ un ++ dotJoin nms, ¬ch = '/' := by
  intro ch hch
  rcases List.mem_append.1 hch with hc1 | hc2
  · exact (goodChar_split ch (all_goodChar_mem un hu ch hc1)).1
  · rcases dotJoin_chars nms hn ch hc2 with rfl | hg
    · decide
    · exact (goodChar_split ch hg).1

theorem seg_no_dot_of_nil (un : List Char) (hu : un.all goodChar = true) :
    '.' ∉ un := by
  intro hch
  exact (goodChar_split '.' (all_goodChar_mem un hu '.' hch)).2.1 rfl

theorem isEmpty_false_ne_nil (l : List Char) (h : l.isEmpty = false) : ¬l = [] := by
  intro he
  rw [he] at h
  exact absurd h (by decide)

theorem append_len_ne_zero (un r : List Char) (h : ¬un = []) : ¬(un ++ r).length = 0 := by
  intro hz
  rw [List.length_append] at hz
  exact h (List.length_eq_zero.mp (by omega))

theorem fldRun_facts : ∀ (fr : List Step), allFldB fr = true →
    ∀ (c : Node) (rest : List Step) (r2 : List Char),
    wellNamed c = true → restPath c (fr ++ rest) = some r2 →
    ∃ cf nms r3, getAt c fr = some cf ∧ wellNamed cf = true ∧
      restPath cf rest = some r3 ∧ r2 = dotJoin nms ++ r3 ∧
      fieldsLoop c nms = some cf ∧
      (∀ nm0 ∈ nms, ∀ ch ∈ nm0, goodChar ch = true) := by
  intro fr
  induction fr with
  | nil =>
    intro _ c rest r2 hw hr
    exact ⟨c, [], r2, rfl, hw, hr, by rw [dotJoin, List.nil_append],
      fieldsLoop_nil c, fun nm0 h0 => absurd h0 (List.not_mem_nil nm0)⟩
  | cons s fr2 ih =>
    intro hall c rest r2 hw hr
    cases s with
    | kid i => exact absurd hall (by rw [allFldB]; exact Bool.false_ne_true)
    | fld i =>
      rw [allFldB] at hall
      rw [List.cons_append] at hr
      cases h : c.fs.get? i with
      | none => rw [restPath, h] at hr; cases hr
      | some f =>
        rw [restPath_fld c i (fr2 ++ rest) f h] at hr
        cases h2 : restPath f (fr2 ++ rest) with
        | none => rw [h2] at hr; cases hr
        | some r2' =>
          rw [h2, Option.map_some'] at hr
          cases hr
          have hfacts := wellFldsL_mem c.fs f (wn_root c hw).2.2.2.2 (List.get?_mem h)
          obtain ⟨cf, nms', r3, hg, hwcf, hrp, he, hfl, hnms⟩ :=
            ih hall f rest r2' hfacts.2.2 h2
          refine ⟨cf, f.uniqueNm :: nms', r3, ?_, hwcf, hrp, ?_, ?_, ?_⟩
          · rw [getAt_fld c i fr2 f h]
            exact hg
          · rw [he, dotJoin, List.cons_append, List.append_assoc, List.cons_append]
          · rw [fieldsLoop_cons c f.uniqueNm nms' f
              (kiField_eq c i f (wn_root c hw).2.2.1 h hfacts.2.1)]
            exact hfl
          · intro nm0 h0 ch hch
            rcases List.mem_cons.1 h0 with rfl | h0b
            · exact all_goodChar_mem _ ((wn_root f hfacts.2.2).1) ch hch
            · exact hnms nm0 h0b ch hch

theorem restPath_nil_out (t : Node) (a : List Step) (hsafe : rootSafeB a = true)
    (h : restPath t a = some []) : a = [] := by
  cases a with
  | nil => rfl
  | cons s a2 =>
    cases s with
    | fld i => exact absurd hsafe (by rw [rootSafeB]; exact Bool.false_ne_true)
    | kid i =>
      cases hk : t.ks.get? i with
      | none => rw [restPath, hk] at h; cases h
      | some c =>
        rw [restPath_kid t i a2 c hk] at h
        cases h2 : restPath c a2 with
        | none => rw [h2] at h; cases h
        | some r2 =>
          rw [h2, Option.map_some'] at h
          have h4 := Option.some.inj h
          simp at h4

theorem resolve_seg (curn c cf : Node) (nms : List (List Char)) (segs : List (List Char))
    (i : Nat) (hi : 2 ≤ i)
    (hd : namesDistinct (curn.ks.map Node.uniqueNm) = true)
    (j : Nat) (hj : curn.ks.get? j = some c)
    (hcne : ¬c.uniqueNm = [])
    (hcun : c.uniqueNm.all goodChar = true)
    (hnms : ∀ nm0 ∈ nms, ∀ ch ∈ nm0, goodChar ch = true)
    (hfl : fieldsLoop c nms = some cf) :
    findLoop curn ((c.uniqueNm ++ dotJoin nms) :: segs) i = findLoop cf segs (i + 1) := by
  have hc : elemByUniqueName curn.ks c.uniqueNm = some c := elem_by_un curn.ks j c hd hj
  cases nms with
  | nil =>
    rw [dotJoin, List.append_nil]
    have hcf : c = cf := Option.some.inj ((fieldsLoop_nil c).symm.trans hfl)
    rw [findLoop_plain curn c.uniqueNm segs i
      (fun hz => hcne (List.length_eq_zero.mp hz))
      (fun hx => absurd hx.1 (by omega))
      (seg_no_dot_of_nil c.uniqueNm hcun) c hc, hcf]
  | cons n0 ns =>
    have hnodotc : ∀ ch ∈ c.uniqueNm, ¬ch = '.' :=
      fun ch hch => (goodChar_split ch (all_goodChar_mem _ hcun ch hch)).2.1
    have hnodotn : ∀ nm0 ∈ n0 :: ns, ∀ ch ∈ nm0, ¬ch = '.' :=
      fun nm0 h0b ch hch => (goodChar_split ch (hnms nm0 h0b ch hch)).2.1
    have hs : splitC '.' (c.uniqueNm ++ dotJoin (n0 :: ns)) = c.uniqueNm :: n0 :: ns :=
      splitC_dot_dotJoin c.uniqueNm (n0 :: ns) hnodotc hnodotn
    have hdot : '.' ∈ c.uniqueNm ++ dotJoin (n0 :: ns) := by
      refine List.mem_append.2 (Or.inr ?_)
      rw [dotJoin]
      exact List.mem_append.2 (Or.inl (List.mem_cons_self _ _))
    exact findLoop_dot curn _ segs i (append_len_ne_zero _ _ hcne)
      (fun hx => absurd hx.1 (by omega)) hdot c.uniqueNm (n0 :: ns) hs c hc cf hfl

theorem findLoop_segs_base (curn m : Node) (r : List Char) (i : Nat)
    (hg : getAt curn [] = some m) (hr : restPath curn [] = some r) :
    findLoop curn (segsAfter r) i = some m := by
  rw [restPath] at hr
  cases hr
  rw [getAt] at hg
  cases hg
  rw [segsAfter]
  exact findLoop_nil curn i

theorem findLoop_segs : ∀ (n : Nat) (a : List Step), a.length ≤ n →
    ∀ (curn m : Node) (r : List Char) (i : Nat), 2 ≤ i →
    wellNamed curn = true → rootSafeB a = true →
    getAt curn a = some m → restPath curn a = some r →
    findLoop curn (segsAfter r) i = some m := by
  intro n
  induction n with
  | zero =>
    intro a hle curn m r i hi hw hroot hg hr
    cases a with
    | nil => exact findLoop_segs_base curn m r i hg hr
    | cons s a2 => rw [List.length_cons] at hle; omega
  | succ n ihn =>
    intro a hle curn m r i hi hw hroot hg hr
    cases a with
    | nil => exact findLoop_segs_base curn m r i hg hr
    | cons s a2 =>
      cases s with
      | fld i0 => exact absurd hroot (by rw [rootSafeB]; exact Bool.false_ne_true)
      | kid j =>
        cases h : curn.ks.get? j with
        | none => rw [restPath, h] at hr; cases hr
        | some c =>
          rw [restPath_kid curn j a2 c h] at hr
          cases h2 : restPath c a2 with
          | none => rw [h2] at hr; cases hr
          | some r2 =>
            rw [h2, Option.map_some'] at hr
            cases hr
            rw [getAt_kid curn j a2 c h] at hg
            have hkmem := wellKidsL_mem curn.ks c (wn_root curn hw).2.2.2.1 (List.get?_mem h)
            have hwc := hkmem.2
            have hcne := isEmpty_false_ne_nil c.uniqueNm hkmem.1
            obtain ⟨heq, hall, hsafe, hlenr⟩ := fldSteps_spec a2
            rw [heq] at hg h2
            obtain ⟨cf, nms, r3, hgf, hwcf, hrp, he, hfl, hnms⟩ :=
              fldRun_facts (fldSteps a2).1 hall c (fldSteps a2).2 r2 hwc h2
            have hgm : getAt cf (fldSteps a2).2 = some m := by
              rw [getAt_append (fldSteps a2).1 (fldSteps a2).2 c, hgf] at hg
              simpa using hg
            have hcun : c.uniqueNm.all goodChar = true := (wn_root c hwc).1
            have hnoslash := seg_no_slash c.uniqueNm nms hcun hnms
            rw [List.cons_append, segsAfter, he]
            rcases restPath_shape (fldSteps a2).2 cf r3 hsafe hrp with h3 | ⟨r4, h3⟩
            · have hrest : (fldSteps a2).2 = [] :=
                restPath_nil_out cf _ hsafe (by rw [h3] at hrp; exact hrp)
              rw [hrest, getAt] at hgm
              have hm : cf = m := Option.some.inj hgm
              rw [h3, List.append_nil, splitC_noc '/' _ hnoslash]
              rw [resolve_seg curn c cf nms [] i hi (wn_root curn hw).2.1 j h hcne hcun
                hnms hfl, findLoop_nil cf (i + 1), hm]
            · rw [h3, ← List.append_assoc,
                splitC_app '/' (c.uniqueNm ++ dotJoin nms) r4 hnoslash]
              rw [resolve_seg curn c cf nms (splitC '/' r4) i hi (wn_root curn hw).2.1 j h
                hcne hcun hnms hfl]
              have hih := ihn (fldSteps a2).2 (by rw [List.length_cons] at hle; omega)
                cf m r3 (i + 1) (by omega) hwcf hsafe hgm hrp
              rw [h3, segsAfter] at hih
              exact hih

theorem trims_id (p : List Char)
    (hall : ∀ ch ∈ p, ch = '/' ∨ ch = '.' ∨ goodChar ch = true) :
    trimBy (fun c => c = '"') (trimBy isWS p) = p := by
  have hws : ∀ ch ∈ p, isWS ch = false := by
    intro ch hch
    rcases hall ch hch with rfl | rfl | hg
    · decide
    · decide
    · exact (goodChar_split ch hg).2.2.2
  rw [trimBy_id isWS p hws]
  have hq : ∀ ch ∈ p, decide (ch = '"') = false := by
    intro ch hch
    rcases hall ch hch with rfl | rfl | hg
    · decide
    · decide
    · exact decide_eq_false (goodChar_split ch hg).2.2.1
  exact trimBy_id _ p hq

/-- C3: resolving a node's own unique path from the tree root returns the node
itself — FindPathUnique applied to PathUnique(n) yields n — provided the tree
is well-named (as Init/UniquifyNames establish) and the node is not an
embedded-field pseudo-child hanging directly off the root (nor inside one):
the address must begin with a Kids step. Children joined by "/" and
embedded-field pseudo-children joined by "." below the first child both
round-trip. -/
theorem c3_path_roundtrip (t m : Node) (a : List Step) (p : List Char)
    (hw : wellNamed t = true) (hroot : rootSafeB a = true)
    (hga : getAt t a = some m) (hp : pathUniqueAt t a = some p) :
    findPathUnique t p = some m := by
  rw [pathUniqueAt] at hp
  cases hr : restPath t a with
  | none => rw [hr] at hp; cases hp
  | some r =>
    rw [hr, Option.map_some'] at hp
    cases hp
    have hallr := restPath_chars a t r hw hr
    have htun := (wn_root t hw).1
    have hall : ∀ ch ∈ ('/' :: t.uniqueNm ++ r), ch = '/' ∨ ch = '.' ∨ goodChar ch = true := by
      intro ch hch
      have hch2 : ch = '/' ∨ ch ∈ t.uniqueNm ∨ ch ∈ r := by simpa using hch
      rcases hch2 with rfl | hcu | hcr
      · exact Or.inl rfl
      · exact Or.inr (Or.inr (all_goodChar_mem _ htun ch hcu))
      · exact hallr ch hcr
    rw [findPathUnique, trims_id _ hall, List.cons_append, splitC, if_pos rfl]
    have hnos : ∀ ch ∈ t.uniqueNm, ¬ch = '/' :=
      fun ch hch => (goodChar_split ch (all_goodChar_mem _ htun ch hch)).1
    rcases restPath_shape a t r hroot hr with h3 | ⟨r4, h3⟩
    · rw [h3, List.append_nil, splitC_noc '/' _ hnos]
      have ha : a = [] := restPath_nil_out t a hroot (by rw [h3] at hr; exact hr)
      rw [ha, getAt] at hga
      have hm : t = m := Option.some.inj hga
      rw [findLoop_skip_empty]
      by_cases hun : t.uniqueNm = []
      · rw [hun, findLoop_skip_empty, findLoop_nil, hm]
      · rw [findLoop_skip_self t t.uniqueNm [] (0 + 1)
          (fun hz => hun (List.length_eq_zero.mp hz)) (by omega) rfl,
          findLoop_nil, hm]
    · rw [h3, splitC_app '/' t.uniqueNm r4 hnos]
      rw [findLoop_skip_empty]
      have hmain := findLoop_segs a.length a (Nat.le_refl _) t m r 2 (by omega) hw hroot hga hr
      rw [h3, segsAfter] at hmain
      by_cases hun : t.uniqueNm = []
      · rw [hun, findLoop_skip_empty]
        exact hmain
      · rw [findLoop_skip_self t t.uniqueNm (splitC '/' r4) (0 + 1)
          (fun hz => hun (List.length_eq_zero.mp hz)) (by omega) rfl]
        exact hmain

/-- The embedded-field pseudo-child of W3's child "c". -/
def W3F : Node := .mk { nm := S "F", uniqueNm := S "F" } [] []

/-- A well-named tree: root "r" with child "c" that carries embedded field "F"
and child "d". -/
def W3 : Node :=
  .mk { nm := S "r", uniqueNm := S "r", typ := S "T" } []
    [.mk { nm := S "c", uniqueNm := S "c" } [W3F]
       [.mk { nm := S "d", uniqueNm := S "d" } [] []]]

theorem c3_path_roundtrip_witness :
    findPathUnique W3 (S "/r/c.F") = some W3F :=
  c3_path_roundtrip W3 W3F [Step.kid 0, Step.fld 0] (S "/r/c.F")
    (by decide) (by decide) (by decide) (by decide)

/-- A root "r" carrying an embedded-field pseudo-child "F" directly. -/
def CT : Node :=
  .mk { nm := S "r", uniqueNm := S "r", typ := S "T" }
    [.mk { nm := S "F", uniqueNm := S "F" } [] []] []

/-- C3 counterexample: an embedded-field pseudo-child directly under the root
exists and its PathUnique is "/r.F", yet FindPathUnique returns nil on it: the
dotted first segment "r.F" is not the root's own name, so the loop tries to
resolve "r" among the root's Kids (not its fields) and fails. -/
theorem c3_counterexample :
    pathUniqueAt CT [Step.fld 0] = some (S "/r.F") ∧
    (getAt CT [Step.fld 0]).isSome = true ∧
    findPathUnique CT (S "/r.F") = none := by
  decide
